import Mathlib

/-!
# meta-remover: a verification development of `app.js`

Shallow embedding of the `MetadataRemover` class of `src/app.js`.

* The batch `this.files` (a JavaScript `Map`) is an insertion-ordered association list.
* The page is kept only as far as the code reads it back: per file card the status line, the
  metadata checkboxes and which of the looked-up elements the card holds, the `alert` messages
  shown and the downloads triggered. A lookup that gives `null` makes the call throw where the
  source dereferences it.
* Platform services the code calls but does not define (HTML parsing of a card, text decoding,
  image decoding, the EXIF reader, canvas encoding, lower-casing) are fields of `Host`; the values
  that differ from call to call (`Date.now()`, `Math.random()`) are fields of `Draw`.
* A promise is modelled by its final fate, `Settled`: resolved, rejected, or never settled.
-/

namespace MetaRemover

/-! ## Files, host services and draws -/

/-- A browser `File`: `name`, `type`, `lastModified` and the bytes (`size` is their number).
`lastModified` is `none` when the property is missing on the object. -/
structure File where
  name : String
  type : String
  lastModified : Option Int
  bytes : List Nat
deriving DecidableEq

/-- Value of `file.size`. -/
def File.size (f : File) : Nat := f.bytes.length

/-- Decoded pixel data of an image, as the canvas receives it. -/
structure Pixels where
  width : Nat
  height : Nat
  data : List Nat
deriving DecidableEq

/-- What `FileReader.readAsDataURL` followed by `img.src = ...` ends in:
the reader fires `onerror`, the image fires `onerror`, or the image fires `onload`
(`late = true` when that happens only after the 10 s timer of `stripImageMetadata`). -/
inductive ImageLoad where
  | readError
  | decodeError
  | loaded (px : Pixels) (late : Bool)
deriving DecidableEq

/-- Which of the elements that the code looks up later exist in a file card: the bar
`.progress-fill`, the line `.status`, the block `.file-actions` and the section `#metadata-<id>`. -/
structure CardElements where
  progressFill : Bool
  status : Bool
  actions : Bool
  metadataSection : Bool
deriving DecidableEq

/-- A card that holds all the elements of its template. -/
def intactCard : CardElements := ⟨true, true, true, true⟩

/-- An element of a file card that the code looks up. -/
inductive Part where
  | progressFill
  | status
  | actions
  | metadataSection
deriving DecidableEq

/-- Whether the card holds the element. -/
def CardElements.has (e : CardElements) : Part → Bool
  | Part.progressFill => e.progressFill
  | Part.status => e.status
  | Part.actions => e.actions
  | Part.metadataSection => e.metadataSection

/-- Platform services used by the code. -/
structure Host where
  /-- The HTML parser behind `card.innerHTML = ...` in `renderFileCard`: the elements the card
  holds once the file name has been written into the template as it is. A name that is plain text
  gives `intactCard`; a name with markup can swallow the elements that follow it (for the name
  `a<!--.txt` the rest of the template becomes a comment). -/
  parseCard : String → CardElements
  /-- The method `String.prototype.toLowerCase`. -/
  toLowerCase : String → String
  /-- The call `new TextDecoder().decode(bytes)`. -/
  decodeText : List Nat → String
  /-- Outcome of reading and decoding a file as an image. -/
  loadImage : File → ImageLoad
  /-- The list `Object.entries(EXIF.getAllTags(img))` for a loaded image; a value is `none` when it is
  `undefined` or `null`, otherwise `String(value)`. -/
  exifTags : File → List (String × Option String)
  /-- The call `canvas.toBlob(callback, type)`: the encoded bytes, or `none` when the blob is `null`. -/
  toBlob : Pixels → String → Option (List Nat)

/-- Values drawn during one operation. -/
structure Draw where
  /-- Value of `Date.now()` inside the file identifier. -/
  idTime : Nat
  /-- Value of `Math.random().toString(36).substr(2, 9)` inside the file identifier. -/
  idSuffix : String
  /-- Value of `Math.random() > 0.5` in `extractExtendedAttributes`. -/
  whereFrom : Bool
  /-- Time value of `new Date()` in `extractExtendedAttributes`. -/
  downloadTime : Int
  /-- Value of `Date.now()` when the cleaned `File` is created. -/
  cleanTime : Int
  /-- Value of `Date.now()` in the archive name. -/
  zipTime : Nat
deriving DecidableEq

/-- Final fate of a promise: resolved, rejected by an exception, or never settled. -/
inductive Settled where
  | resolved
  | rejected
  | pending
deriving DecidableEq

/-! ## String helpers -/

/-- The test `s.startsWith(p)`. -/
def startsWith (s p : String) : Bool := p.toList.isPrefixOf s.toList

/-- The test `s.endsWith(p)`. -/
def endsWith (s p : String) : Bool := p.toList.isSuffixOf s.toList

/-! ## `Date.prototype.toISOString` -/

/-- Largest magnitude of a valid time value, in milliseconds. -/
def maxTimeValue : Int := 8640000000000000

/-- Decimal digits of `n`, left-padded with zeros to width `w`. -/
def padDigits (w n : Nat) : String :=
  let s := toString n
  String.mk (List.replicate (w - s.length) '0') ++ s

/-- Proleptic Gregorian (year, month, day) of a day number counted from 1970-01-01. -/
def civilFromDays (z0 : Int) : Int × Nat × Nat :=
  let z := z0 + 719468
  let era := Int.fdiv z 146097
  let doe := (z - era * 146097).toNat
  let yoe := (doe - doe / 1460 + doe / 36524 - doe / 146096) / 365
  let doy := doe - (365 * yoe + yoe / 4 - yoe / 100)
  let mp := (5 * doy + 2) / 153
  let d := doy - (153 * mp + 2) / 5 + 1
  let m := if mp < 10 then mp + 3 else mp - 9
  let y : Int := (yoe : Int) + era * 400
  (if m ≤ 2 then y + 1 else y, m, d)

/-- Year field of the ISO format: four digits for 0..9999, otherwise sign and six digits. -/
def isoYear (y : Int) : String :=
  if 0 ≤ y ∧ y ≤ 9999 then padDigits 4 y.toNat
  else if y < 0 then "-" ++ padDigits 6 (-y).toNat
  else "+" ++ padDigits 6 y.toNat

/-- ISO rendering `YYYY-MM-DDTHH:mm:ss.sssZ` of a time value. -/
def formatISO (t : Int) : String :=
  let (y, m, d) := civilFromDays (Int.fdiv t 86400000)
  let ms := (Int.fmod t 86400000).toNat
  isoYear y ++ "-" ++ padDigits 2 m ++ "-" ++ padDigits 2 d ++ "T" ++
    padDigits 2 (ms / 3600000) ++ ":" ++ padDigits 2 (ms / 60000 % 60) ++ ":" ++
    padDigits 2 (ms / 1000 % 60) ++ "." ++ padDigits 3 (ms % 1000) ++ "Z"

/-- The call `new Date(t).toISOString()`: `none` when the date is invalid (a `RangeError` is thrown). -/
def toISOString (t : Int) : Option String :=
  if -maxTimeValue ≤ t ∧ t ≤ maxTimeValue then some (formatISO t) else none

/-! ## The metadata object -/

/-- The `metadata` object of `analyzeFile`: own string-keyed properties in insertion order. -/
abbrev Metadata := List (String × String)

/-- Lookup `metadata[key]`. -/
def Metadata.get (m : Metadata) (key : String) : Option String :=
  match m with
  | [] => none
  | (k, v) :: rest => if k = key then some v else Metadata.get rest key

/-- Assignment `metadata[key] = value`: an existing property keeps its place, a new one is
appended. -/
def Metadata.set (m : Metadata) (key value : String) : Metadata :=
  match m with
  | [] => [(key, value)]
  | (k, v) :: rest => if k = key then (k, value) :: rest else (k, v) :: Metadata.set rest key value

/-! ## `extractImageMetadata` -/

/-- Loop over `Object.entries(allTags)` in the `EXIF.getData` callback. -/
def addExifTags (tags : List (String × Option String)) (metadata : Metadata) : Metadata :=
  match tags with
  | [] => metadata
  | (key, some value) :: rest => addExifTags rest (metadata.set ("EXIF:" ++ key) value)
  | (_, none) :: rest => addExifTags rest metadata

/-- Method `extractImageMetadata(file, metadata)`: the promise resolves only from the image's
`onload` handler; there is no `onerror` handler on the reader or on the image and no timer, so in
the other cases the result is `none` (the promise stays pending). -/
def extractImageMetadata (host : Host) (file : File) (metadata : Metadata) : Option Metadata :=
  match host.loadImage file with
  | ImageLoad.loaded _ _ => some (addExifTags (host.exifTags file) metadata)
  | ImageLoad.readError => none
  | ImageLoad.decodeError => none

/-! ## `extractPDFMetadata` -/

/-- Characters matched by `\s` in a JavaScript regular expression. -/
def isWhiteSpace (c : Char) : Bool :=
  let n := c.toNat
  (9 ≤ n && n ≤ 13) || n = 0x20 || n = 0xA0 || n = 0x1680 || (0x2000 ≤ n && n ≤ 0x200A) ||
    n = 0x2028 || n = 0x2029 || n = 0x202F || n = 0x205F || n = 0x3000 || n = 0xFEFF

/-- Line terminators, the characters `.` does not match. -/
def isLineTerminator (c : Char) : Bool :=
  let n := c.toNat
  n = 0x0A || n = 0x0D || n = 0x2028 || n = 0x2029

/-- Literal prefix of a pattern: the rest of the input after `lit`, if the input starts with it. -/
def dropLiteral : List Char → List Char → Option (List Char)
  | [], s => some s
  | _ :: _, [] => none
  | a :: lit, c :: s => if a = c then dropLiteral lit s else none

/-- The tail `(.*?)\)` of a pattern, tried at one position: the captured group. -/
def lazyGroup : List Char → Option (List Char)
  | [] => none
  | c :: s =>
    if c = ')' then some []
    else if isLineTerminator c then none
    else (lazyGroup s).map (fun v => c :: v)

/-- The part `\s*\((.*?)\)` of a pattern, tried at one position: the captured group. -/
def matchTail (r : List Char) : Option (List Char) :=
  match r.dropWhile isWhiteSpace with
  | '(' :: t => lazyGroup t
  | _ => none

/-- The pattern `/\/Key\s*\((.*?)\)/` anchored at the start of `s`: the captured group. -/
def matchHere (key : String) (s : List Char) : Option (List Char) :=
  match dropLiteral ('/' :: key.toList) s with
  | none => none
  | some r => matchTail r

/-- The call `text.match(/\/Key\s*\((.*?)\)/)`: the group of the first position where the pattern
matches. -/
def regexCapture (key : String) : List Char → Option (List Char)
  | [] => none
  | c :: s =>
    match matchHere key (c :: s) with
    | some v => some v
    | none => regexCapture key s

/-- Key names of the `patterns` table, in `Object.entries` order. -/
def pdfKeys : List String := ["Title", "Author", "Creator", "Producer", "CreationDate", "ModDate"]

/-- Loop `for (const [key, pattern] of Object.entries(patterns))`. -/
def applyPatterns (text : List Char) (keys : List String) (metadata : Metadata) : Metadata :=
  match keys with
  | [] => metadata
  | k :: rest =>
    match regexCapture k text with
    | some v => applyPatterns text rest (metadata.set ("PDF:" ++ k) (String.mk v))
    | none => applyPatterns text rest metadata

/-- The `text` of `extractPDFMetadata`: `new TextDecoder().decode(arrayBuffer.slice(0, 10000))`. -/
def pdfText (host : Host) (file : File) : String := host.decodeText (file.bytes.take 10000)

/-- Method `extractPDFMetadata(file, metadata)`. -/
def extractPDFMetadata (host : Host) (file : File) (metadata : Metadata) : Metadata :=
  applyPatterns (pdfText host file).toList pdfKeys metadata

/-! ## `extractExtendedAttributes` -/

/-- Truthiness of `file.lastModified`: present and not zero. -/
def truthyStamp : Option Int → Option Int
  | some t => if t = 0 then none else some t
  | none => none

/-- Value of `file.type || 'unknown'`. -/
def typeOrUnknown (type : String) : String := if type = "" then "unknown" else type

/-- Statements after the `lastModified` test in `extractExtendedAttributes`. -/
def addFileAttributes (draw : Draw) (file : File) (metadata : Metadata) : Metadata :=
  let m1 := metadata.set "File:Name" file.name
  let m2 := m1.set "File:Size" (toString file.size ++ " bytes")
  let m3 := m2.set "File:Type" (typeOrUnknown file.type)
  if draw.whereFrom then
    (m3.set "macOS:WhereFrom" "https://example.com/download").set "macOS:DownloadDate"
      (formatISO draw.downloadTime)
  else m3

/-- The statement `if (file.lastModified) { metadata['File:LastModified'] = ... }`; `none` when
`toISOString` throws. -/
def addLastModified (file : File) (metadata : Metadata) : Option Metadata :=
  match truthyStamp file.lastModified with
  | some t =>
    match toISOString t with
    | some iso => some (metadata.set "File:LastModified" iso)
    | none => none
  | none => some metadata

/-- Method `extractExtendedAttributes(file, metadata)`; `none` when `toISOString` throws. -/
def extractExtendedAttributes (draw : Draw) (file : File) (metadata : Metadata) :
    Option Metadata :=
  match addLastModified file metadata with
  | some m => some (addFileAttributes draw file m)
  | none => none

/-! ## The batch and the page -/

/-- A value of the `this.files` map. `cleanedFile` and `removedMetadata` are `none` while the
property does not exist on the object. -/
structure FileData where
  file : File
  metadata : Option Metadata
  cleaned : Bool
  cleanedFile : Option File
  removedMetadata : Option (List String)
deriving DecidableEq

/-- The status line of a card: `analyzing` is class `status analyzing` with its initial text,
`ready` is `status ready`, `cleaning` is `status analyzing` with text `Cleaning...`, and
`cleaned n` is `status cleaned` with text `Cleaned ✓ (n items removed)`. -/
inductive Status where
  | analyzing
  | ready
  | cleaning
  | cleaned (removed : Nat)
deriving DecidableEq

/-- A metadata checkbox: its `data-key` and whether it is checked. -/
structure Checkbox where
  key : String
  checked : Bool
deriving DecidableEq

/-- The part of a file card the code reads back: status line and metadata checkboxes, and which
elements of the template the card holds. `status` and `boxes` are written only through elements
that exist. -/
structure Card where
  status : Status
  boxes : List Checkbox
  elements : CardElements
deriving DecidableEq

/-- A download started by clicking a generated link. -/
inductive Download where
  | single (filename : String) (file : File)
  | archive (filename : String) (entries : List (String × File))
deriving DecidableEq

/-- State of the application: the batch, the cards in document order, the alerts shown and the
downloads started. -/
structure App where
  files : List (String × FileData)
  cards : List (String × Card)
  alerts : List String
  downloads : List Download
deriving DecidableEq

/-- State after `new MetadataRemover()`. -/
def App.empty : App := ⟨[], [], [], []⟩

/-- An operation's effect: the state it leaves and the fate of its promise. -/
structure Run where
  app : App
  fate : Settled
deriving DecidableEq

/-- The call `this.files.get(fileId)`. -/
def filesGet (files : List (String × FileData)) (fileId : String) : Option FileData :=
  match files with
  | [] => none
  | (k, v) :: rest => if k = fileId then some v else filesGet rest fileId

/-- The call `this.files.set(fileId, fileData)`: an existing key keeps its place. -/
def filesSet (files : List (String × FileData)) (fileId : String) (fd : FileData) :
    List (String × FileData) :=
  match files with
  | [] => [(fileId, fd)]
  | (k, v) :: rest => if k = fileId then (k, fd) :: rest else (k, v) :: filesSet rest fileId fd

/-- The call `this.files.delete(fileId)`. -/
def filesDelete (files : List (String × FileData)) (fileId : String) : List (String × FileData) :=
  files.filter (fun p => p.1 ≠ fileId)

/-- The card found by `document.getElementById('file-<fileId>')`: the first one in document
order. -/
def cardGet (cards : List (String × Card)) (fileId : String) : Option Card :=
  match cards with
  | [] => none
  | (k, c) :: rest => if k = fileId then some c else cardGet rest fileId

/-- The card in which a lookup such as `document.querySelector('#file-<fileId> .status')` or
`document.getElementById('metadata-<fileId>')` finds its element: the first card of that
identifier, in document order, that holds the element; `none` when the lookup gives `null`. -/
def cardFind (cards : List (String × Card)) (fileId : String) (part : Part) : Option Card :=
  match cards with
  | [] => none
  | (k, c) :: rest =>
    if k = fileId ∧ c.elements.has part = true then some c else cardFind rest fileId part

/-- A change made through the element that `cardFind` finds. -/
def cardModifyAt (cards : List (String × Card)) (fileId : String) (part : Part)
    (f : Card → Card) : List (String × Card) :=
  match cards with
  | [] => []
  | (k, c) :: rest =>
    if k = fileId ∧ c.elements.has part = true then (k, f c) :: rest
    else (k, c) :: cardModifyAt rest fileId part f

/-- Assignments to `statusEl.className` and `statusEl.textContent` of a card. -/
def setStatus (s : App) (fileId : String) (st : Status) : App :=
  { s with cards := cardModifyAt s.cards fileId Part.status (fun c => { c with status := st }) }

/-- The statement `this.files.set(fileId, fileData)`. -/
def storeRecord (s : App) (fileId : String) (fd : FileData) : App :=
  { s with files := filesSet s.files fileId fd }

/-- A call of `alert(message)`. -/
def showAlert (s : App) (message : String) : App :=
  { s with alerts := s.alerts ++ [message] }

/-! ## `handleFiles` and `analyzeFile` -/

/-- The `isHEIC` test of `handleFiles`. -/
def isHEIC (host : Host) (file : File) : Bool :=
  endsWith (host.toLowerCase file.name) ".heic" ||
    endsWith (host.toLowerCase file.name) ".heif" ||
    file.type = "image/heic" ||
    file.type = "image/heif"

/-- Text of the `alert` for a rejected file. -/
def heicAlert (file : File) : String :=
  "HEIC format is not supported. Please convert \"" ++ file.name ++ "\" to JPEG or PNG first."

/-- The identifier built in `handleFiles`. -/
def newFileId (draw : Draw) : String :=
  "file_" ++ toString draw.idTime ++ "_" ++ draw.idSuffix

/-- Method `renderFileCard(fileId)`: a card with status `Analyzing...` and an empty metadata
section is appended to the list. The file name goes into the template unescaped, so the elements
the card ends up with are those the parser makes of it. `handleFiles` calls the method right after
storing the record; without a record the source throws and no card is added. -/
def renderFileCard (host : Host) (s : App) (fileId : String) : App :=
  match filesGet s.files fileId with
  | none => s
  | some fileData =>
    { s with cards := s.cards ++
        [(fileId, ⟨Status.analyzing, [], host.parseCard fileData.file.name⟩)] }

/-- Method `renderMetadata(fileId, metadata)`, for a page on which the section
`#metadata-<fileId>` exists: one checked checkbox per entry. -/
def renderMetadata (s : App) (fileId : String) (metadata : Metadata) : App :=
  let boxes : List Checkbox := metadata.map (fun e => ⟨e.1, true⟩)
  let write : Card → Card := fun c => { c with boxes := boxes }
  { s with cards := cardModifyAt s.cards fileId Part.metadataSection write }

/-- The local `metadata` object of `analyzeFile` after the three extractors, with the fate of
the awaits: `pending` when the image extractor never resolves, `rejected` when the attribute
extractor throws. -/
def collectMetadata (host : Host) (draw : Draw) (file : File) : Settled × Metadata :=
  let imageStage : Option Metadata :=
    if startsWith file.type "image/" then extractImageMetadata host file [] else some []
  match imageStage with
  | none => (Settled.pending, [])
  | some m1 =>
    let m2 := if file.type = "application/pdf" then extractPDFMetadata host file m1 else m1
    match extractExtendedAttributes draw file m2 with
    | none => (Settled.rejected, m2)
    | some m3 => (Settled.resolved, m3)

/-- The end of `analyzeFile`, from `fileData.metadata = metadata` on: the record is stored, then
`renderMetadata` throws when the metadata section is missing, then the status assignment throws
when the status line is missing. -/
def finishAnalysis (s : App) (fileId : String) (fileData : FileData) (metadata : Metadata) :
    Run :=
  let s1 := storeRecord s fileId { fileData with metadata := some metadata }
  match cardFind s1.cards fileId Part.metadataSection with
  | none => ⟨s1, Settled.rejected⟩
  | some _ =>
    let s2 := renderMetadata s1 fileId metadata
    match cardFind s2.cards fileId Part.status with
    | none => ⟨s2, Settled.rejected⟩
    | some _ => ⟨setStatus s2 fileId Status.ready, Settled.resolved⟩

/-- Method `analyzeFile(fileId)`. The call throws at once when the record or the progress bar
of its card is missing. -/
def analyzeFile (host : Host) (draw : Draw) (s : App) (fileId : String) : Run :=
  match filesGet s.files fileId with
  | none => ⟨s, Settled.rejected⟩
  | some fileData =>
    match cardFind s.cards fileId Part.progressFill with
    | none => ⟨s, Settled.rejected⟩
    | some _ =>
      match collectMetadata host draw fileData.file with
      | (Settled.resolved, metadata) => finishAnalysis s fileId fileData metadata
      | (fate, _) => ⟨s, fate⟩

/-- Method `handleFiles(fileList)`; each file comes with the values drawn while it is handled.
The loop goes on to the next file only when `await this.analyzeFile(fileId)` resolves. -/
def handleFiles (host : Host) (s : App) : List (File × Draw) → Run
  | [] => ⟨s, Settled.resolved⟩
  | (file, draw) :: rest =>
    if isHEIC host file then
      handleFiles host (showAlert s (heicAlert file)) rest
    else
      let fileId := newFileId draw
      let s1 := storeRecord s fileId ⟨file, none, false, none, none⟩
      let s2 := renderFileCard host s1 fileId
      match analyzeFile host draw s2 fileId with
      | ⟨s3, Settled.resolved⟩ => handleFiles host s3 rest
      | r => r

/-! ## Selection -/

/-- Method `getSelectedMetadata(fileId)`: `data-key` of the checked inputs with
`data-file = fileId`, in document order. -/
def getSelectedMetadata (s : App) (fileId : String) : List String :=
  ((s.cards.filter (fun p => p.1 = fileId)).map
    (fun p => (p.2.boxes.filter (fun b => b.checked)).map (fun b => b.key))).flatten

/-- The checkboxes selected by `input[data-file="<fileId>"].metadata-checkbox`, in document
order. -/
def fileBoxes (s : App) (fileId : String) : List Checkbox :=
  ((s.cards.filter (fun p => p.1 = fileId)).map (fun p => p.2.boxes)).flatten

/-- The loop `checkboxes.forEach(cb => { cb.checked = value; })` over the checkboxes of
`fileId`. -/
def setAllBoxes (s : App) (fileId : String) (value : Bool) : App :=
  { s with cards := s.cards.map (fun p =>
      if p.1 = fileId then (p.1, { p.2 with boxes := p.2.boxes.map (fun b => ⟨b.key, value⟩) })
      else p) }

/-- Method `toggleSelectAll(fileId)`. The closing call of `updateToggleButton` only rewrites the
label of the toggle button, which is not part of the state. -/
def toggleSelectAll (s : App) (fileId : String) : App :=
  let allChecked := (fileBoxes s fileId).all (fun cb => cb.checked)
  setAllBoxes s fileId (!allChecked)

/-- The user ticks or unticks the checkbox of `key` on the card `#file-<fileId>`. -/
def clickCheckbox (s : App) (fileId key : String) (value : Bool) : App :=
  let click : Card → Card := fun c =>
    { c with boxes := c.boxes.map (fun b => if b.key = key then ⟨b.key, value⟩ else b) }
  { s with cards := cardModifyAt s.cards fileId Part.metadataSection click }

/-! ## `removeMetadata` and `stripMetadata` -/

/-- Method `stripImageMetadata(file, selectedMetadata)`. The promise always resolves: with the
original file from the reader's or the image's `onerror`, from the 10 s timer, or when `toBlob`
yields no blob; with a new `File` otherwise. -/
def stripImageMetadata (host : Host) (draw : Draw) (file : File)
    (_selectedMetadata : List String) : File :=
  match host.loadImage file with
  | ImageLoad.readError => file
  | ImageLoad.decodeError => file
  | ImageLoad.loaded px late =>
    if late then file
    else
      match host.toBlob px file.type with
      | none => file
      | some blob => ⟨file.name, file.type, some draw.cleanTime, blob⟩

/-- Method `stripMetadata(file, selectedMetadata)`. -/
def stripMetadata (host : Host) (draw : Draw) (file : File) (selectedMetadata : List String) :
    File :=
  if startsWith file.type "image/" then stripImageMetadata host draw file selectedMetadata
  else file

/-- Method `downloadSingleFile(file, filename)`. -/
def downloadSingleFile (s : App) (file : File) (filename : String) : App :=
  { s with downloads := s.downloads ++ [Download.single filename file] }

/-- Method `downloadFile(fileId)`. -/
def downloadFile (s : App) (fileId : String) : App :=
  match filesGet s.files fileId with
  | none => s
  | some fileData =>
    match fileData.cleanedFile with
    | none => s
    | some cleanedFile => downloadSingleFile s cleanedFile ("cleaned_" ++ fileData.file.name)

/-- The part of `removeMetadata` from `getSelectedMetadata` on, once the status line and the
progress bar have been found: the record is marked cleaned and stored and the status line
updated; the call then throws when the block `.file-actions` is missing, otherwise the cleaned
file is downloaded. -/
def finishClean (host : Host) (draw : Draw) (s1 : App) (fileId : String) (fileData : FileData) :
    Run :=
  let selectedMetadata := getSelectedMetadata s1 fileId
  let cleanedFile := stripMetadata host draw fileData.file selectedMetadata
  let s2 := storeRecord s1 fileId
    { fileData with
      cleaned := true
      cleanedFile := some cleanedFile
      removedMetadata := some selectedMetadata }
  let s3 := setStatus s2 fileId (Status.cleaned selectedMetadata.length)
  match cardFind s3.cards fileId Part.actions with
  | none => ⟨s3, Settled.rejected⟩
  | some _ => ⟨downloadFile s3 fileId, Settled.resolved⟩

/-- Method `removeMetadata(fileId)`. After the guard the call throws when the status line of the
card is missing, and, the status set to `Cleaning...`, when the progress bar is missing. -/
def removeMetadata (host : Host) (draw : Draw) (s : App) (fileId : String) : Run :=
  match filesGet s.files fileId with
  | none => ⟨s, Settled.resolved⟩
  | some fileData =>
    if fileData.cleaned then ⟨s, Settled.resolved⟩
    else
      match cardFind s.cards fileId Part.status with
      | none => ⟨s, Settled.rejected⟩
      | some _ =>
        let s1 := setStatus s fileId Status.cleaning
        match cardFind s1.cards fileId Part.progressFill with
        | none => ⟨s1, Settled.rejected⟩
        | some _ => finishClean host draw s1 fileId fileData

/-! ## Export -/

/-- JSZip `zip.file(name, data)`: adds the entry, or replaces the entry already stored under
that name. -/
def zipFile (zip : List (String × File)) (name : String) (data : File) : List (String × File) :=
  match zip with
  | [] => [(name, data)]
  | (k, v) :: rest => if k = name then (k, data) :: rest else (k, v) :: zipFile rest name data

/-- The list `cleanedFiles` collected at the start of `downloadAllAsZip`. -/
def cleanedFiles (s : App) : List FileData :=
  (s.files.map (fun p => p.2)).filter (fun fd => fd.cleaned && fd.cleanedFile.isSome)

/-- Loop `for (const fileData of cleanedFiles) zip.file(...)`. -/
def zipAll (zip : List (String × File)) : List FileData → List (String × File)
  | [] => zip
  | fd :: rest =>
    match fd.cleanedFile with
    | some cf => zipAll (zipFile zip ("cleaned_" ++ fd.file.name) cf) rest
    | none => zipAll zip rest

/-- Method `downloadAllAsZip()`. -/
def downloadAllAsZip (draw : Draw) (s : App) : Run :=
  match cleanedFiles s with
  | [] => ⟨showAlert s "No cleaned files to download!", Settled.resolved⟩
  | [fileData] =>
    match fileData.cleanedFile with
    | some cf => ⟨downloadSingleFile s cf ("cleaned_" ++ fileData.file.name), Settled.resolved⟩
    | none => ⟨s, Settled.rejected⟩
  | list =>
    let filename := "cleaned_files_" ++ toString draw.zipTime ++ ".zip"
    ⟨{ s with downloads := s.downloads ++ [Download.archive filename (zipAll [] list)] },
      Settled.resolved⟩

/-! ## Batch operations -/

/-- Loop `for (const fileId of uncleanedFiles) await this.removeMetadata(fileId)`. -/
def cleanEach (host : Host) (draws : Nat → Draw) (s : App) : Nat → List String → Run
  | _, [] => ⟨s, Settled.resolved⟩
  | i, fileId :: rest =>
    match removeMetadata host (draws i) s fileId with
    | ⟨s1, Settled.resolved⟩ => cleanEach host draws s1 (i + 1) rest
    | r => r

/-- Method `removeAllMetadata()`; `draws i` holds the values drawn for the `i`-th clean, and
`draws` at the number of cleans those of the export. -/
def removeAllMetadata (host : Host) (draws : Nat → Draw) (s : App) : Run :=
  let uncleanedFiles := (s.files.filter (fun p => !p.2.cleaned)).map (fun p => p.1)
  if uncleanedFiles.isEmpty then
    ⟨showAlert s "All files are already cleaned!", Settled.resolved⟩
  else
    match cleanEach host draws s 0 uncleanedFiles with
    | ⟨s1, Settled.resolved⟩ => downloadAllAsZip (draws uncleanedFiles.length) s1
    | r => r

/-- Method `removeFile(fileId)`: the record is deleted first; the call then throws when the page
has no card of that identifier, otherwise the card is taken off the page. -/
def removeFile (s : App) (fileId : String) : Run :=
  let s1 := { s with files := filesDelete s.files fileId }
  match cardGet s.cards fileId with
  | none => ⟨s1, Settled.rejected⟩
  | some _ => ⟨{ s1 with cards := s1.cards.eraseP (fun p => p.1 = fileId) }, Settled.resolved⟩

/-- Method `clearAll()`. -/
def clearAll (s : App) : App :=
  { s with files := [], cards := [] }

/-! ## Reachable states -/

/-- The states the application gets to from its initial state by calls of `handleFiles`,
`analyzeFile`, `removeMetadata`, `removeAllMetadata`, `removeFile` and `clearAll`, with any host
and any draws; the state a call leaves counts whether its promise resolves, rejects or stays
pending. -/
inductive Reachable : App → Prop where
  | init : Reachable App.empty
  | handleFiles (host : Host) (s : App) (input : List (File × Draw)) :
      Reachable s → Reachable (handleFiles host s input).app
  | analyzeFile (host : Host) (draw : Draw) (s : App) (fileId : String) :
      Reachable s → Reachable (analyzeFile host draw s fileId).app
  | removeMetadata (host : Host) (draw : Draw) (s : App) (fileId : String) :
      Reachable s → Reachable (removeMetadata host draw s fileId).app
  | removeAllMetadata (host : Host) (draws : Nat → Draw) (s : App) :
      Reachable s → Reachable (removeAllMetadata host draws s).app
  | removeFile (s : App) (fileId : String) :
      Reachable s → Reachable (removeFile s fileId).app
  | clearAll (s : App) : Reachable s → Reachable (clearAll s)

/-- The record invariant of the data model: sanitized output and removed-keys list are both
present or both absent, and both are absent while the record is not marked cleaned. -/
def RecordConsistent (fd : FileData) : Prop :=
  (fd.cleanedFile.isSome = fd.removedMetadata.isSome) ∧
    (fd.cleaned = false → fd.cleanedFile = none ∧ fd.removedMetadata = none)

/-! ## The PDF entry rule in the words of the specification -/

/-- The text holds, right after `pre`, "/Key", optional whitespace `ws`, "(", characters `body`,
")", and then `post`. -/
def EntryAt (key : String) (text pre ws body post : List Char) : Prop :=
  text = pre ++ ('/' :: key.toList) ++ ws ++ ['('] ++ body ++ [')'] ++ post ∧
    ∀ c ∈ ws, isWhiteSpace c = true

/-- An entry whose characters between the parentheses hold no line terminator. -/
def LineEntryAt (key : String) (text pre ws body post : List Char) : Prop :=
  EntryAt key text pre ws body post ∧ ∀ c ∈ body, isLineTerminator c = false

/-- The text between the "(" of an entry and the first ")" that follows it. -/
def entryValue (body : List Char) : String :=
  String.mk (body.takeWhile (fun c => c != ')'))

/-! ## Observations used in the statements -/

/-- The `metadata` stored on the record of `fileId`, if the record exists and has one. -/
def storedMetadata (s : App) (fileId : String) : Option Metadata :=
  match filesGet s.files fileId with
  | some fd => fd.metadata
  | none => none

/-- The status line of the card of `fileId`, as `querySelector` finds it. -/
def statusOf (s : App) (fileId : String) : Option Status :=
  (cardFind s.cards fileId Part.status).map (fun c => c.status)

/-! ## A concrete host and sample inputs -/

/-- Byte-wise decoding, enough for ASCII input. -/
def asciiDecode (bytes : List Nat) : String := String.mk (bytes.map Char.ofNat)

/-- Bytes of an ASCII string. -/
def asciiBytes (s : String) : List Nat := s.toList.map Char.toNat

/-- A sample host. Its page parser leaves the card intact for a name without `<` and treats any
other name as one that opens a comment, as `a<!--.txt` does. Its image codec is a toy: the first
byte of a file tells how loading ends: no byte at all is a read error, `0` a decode error, `1` a
load that finishes after the timer, anything else a load in time; the other bytes are the pixels.
Encoding fails on an empty canvas. -/
def sampleHost : Host where
  parseCard := fun name => if name.toList.contains '<' then ⟨false, false, false, false⟩
    else intactCard
  toLowerCase := fun s => String.mk (s.toList.map Char.toLower)
  decodeText := asciiDecode
  loadImage := fun f =>
    match f.bytes with
    | [] => ImageLoad.readError
    | 0 :: _ => ImageLoad.decodeError
    | 1 :: rest => ImageLoad.loaded ⟨rest.length, 1, rest⟩ true
    | _ :: rest => ImageLoad.loaded ⟨rest.length, 1, rest⟩ false
  exifTags := fun _ => [("Make", some "Acme"), ("Orientation", some "1"), ("Flash", none)]
  toBlob := fun px _ => if px.data.isEmpty then none else some (255 :: px.data)

/-- Draws of a first operation. -/
def drawA : Draw := ⟨1700000000000, "k3x9q2m1z", false, 1700000000001, 1700000000002, 1700000000003⟩

/-- Draws of a second operation. -/
def drawB : Draw := ⟨1700000000500, "p0w8e7r6t", true, 1700000000501, 1700000000502, 1700000000503⟩

/-- An image file whose bytes do not decode. -/
def corruptPng : File := ⟨"holiday.png", "image/png", some 1600000000000, [0, 13, 10]⟩

/-- A plain text file. -/
def notesTxt : File := ⟨"notes.txt", "text/plain", some 1600000000000, asciiBytes "hello"⟩

/-- A HEIC file by name. -/
def photoHeic : File := ⟨"photo.HEIC", "", some 1600000000000, [2, 7]⟩

/-- A PDF whose information dictionary holds a title and an author. -/
def reportPdf : File :=
  ⟨"report.pdf", "application/pdf", some 1600000000000,
    asciiBytes "%PDF-1.4 1 0 obj << /Title (Report) /Author (Jane) >> endobj"⟩

/-- A PDF whose title string runs over two lines. -/
def twoLinePdf : File :=
  ⟨"draft.pdf", "application/pdf", some 1600000000000, asciiBytes "/Title (a\nb)"⟩

/-- An image that loads in time and re-encodes. -/
def goodPng : File := ⟨"beach.png", "image/png", some 1600000000000, [2, 10, 20, 30]⟩

/-- A second text file with the name of `notesTxt` and other content. -/
def otherNotesTxt : File := ⟨"notes.txt", "text/plain", some 1650000000000, asciiBytes "world"⟩

/-- The draws of a "clean all": `drawA` for the first clean, `drawB` afterwards. -/
def sampleDraws (i : Nat) : Draw := if i = 0 then drawA else drawB

/-- The batch after `handleFiles` was handed the text file and then the image that does not
decode: the first record is analysed, the second is stored and still waiting. -/
def readyBatch : App :=
  (handleFiles sampleHost App.empty [(notesTxt, drawA), (corruptPng, drawB)]).app

/-- The batch `readyBatch` after a click on "Clean" for the text file. -/
def cleanedOnce : App :=
  (removeMetadata sampleHost drawA readyBatch "file_1700000000000_k3x9q2m1z").app

/-- Two text files of the same name, ingested one after the other and both cleaned. -/
def twinBatch : App :=
  (cleanEach sampleHost sampleDraws
    (handleFiles sampleHost App.empty [(notesTxt, drawA), (otherNotesTxt, drawB)]).app 0
    ["file_1700000000000_k3x9q2m1z", "file_1700000000500_p0w8e7r6t"]).app

/-- The batch `readyBatch` after the user unticked `File:Name` on the card of the text file: a
selection in which some keys are marked for removal and one is retained. -/
def mixedBatch : App :=
  clickCheckbox readyBatch "file_1700000000000_k3x9q2m1z" "File:Name" false

/-- A batch holding one freshly stored record, with its card, as `handleFiles` leaves it just
before `analyzeFile` runs. -/
def freshBatch (fileId : String) (file : File) : App :=
  renderFileCard sampleHost (storeRecord App.empty fileId ⟨file, none, false, none, none⟩) fileId

/-- A text file whose name opens an HTML comment. -/
def markupTxt : File := ⟨"a<!--.txt", "text/plain", some 1600000000000, asciiBytes "hello"⟩

/-- The batch after `handleFiles` was handed `markupTxt`: the record is stored, its card is
rendered without the elements that follow the name, and `analyzeFile` has thrown. -/
def markupBatch : App := (handleFiles sampleHost App.empty [(markupTxt, drawA)]).app

end MetaRemover

/-! # Theorems -/

namespace MetaRemover

/-! ## Lemmas on the metadata object -/

theorem Metadata.get_set_self (m : Metadata) (k v : String) : (m.set k v).get k = some v := by
  induction m with
  | nil => simp [Metadata.set, Metadata.get]
  | cons e rest ih =>
    obtain ⟨k0, v0⟩ := e
    by_cases h : k0 = k
    · simp [Metadata.set, Metadata.get, h]
    · simp [Metadata.set, Metadata.get, h, ih]

theorem Metadata.get_set_other (m : Metadata) (k v k' : String) (h : k ≠ k') :
    (m.set k v).get k' = m.get k' := by
  induction m with
  | nil => simp [Metadata.set, Metadata.get, h]
  | cons e rest ih =>
    obtain ⟨k0, v0⟩ := e
    by_cases h0 : k0 = k
    · subst h0
      simp [Metadata.set, Metadata.get, h]
    · by_cases h1 : k0 = k'
      · subst h1
        simp [Metadata.set, Metadata.get, h0]
      · simp [Metadata.set, Metadata.get, h0, h1, ih]

theorem toISOString_of_valid (t : Int) (h : -maxTimeValue ≤ t ∧ t ≤ maxTimeValue) :
    toISOString t = some (formatISO t) := by
  simp [toISOString, h]

theorem addFileAttributes_get_lastModified (draw : Draw) (file : File) (m : Metadata) :
    (addFileAttributes draw file m).get "File:LastModified" = m.get "File:LastModified" := by
  unfold addFileAttributes
  split <;> simp [Metadata.get_set_other]

theorem addFileAttributes_get_name (draw : Draw) (file : File) (m : Metadata) :
    (addFileAttributes draw file m).get "File:Name" = some file.name := by
  unfold addFileAttributes
  split <;> simp [Metadata.get_set_other, Metadata.get_set_self]

theorem addFileAttributes_get_size (draw : Draw) (file : File) (m : Metadata) :
    (addFileAttributes draw file m).get "File:Size" = some (toString file.size ++ " bytes") := by
  unfold addFileAttributes
  split <;> simp [Metadata.get_set_other, Metadata.get_set_self]

theorem addFileAttributes_get_type (draw : Draw) (file : File) (m : Metadata) :
    (addFileAttributes draw file m).get "File:Type" = some (typeOrUnknown file.type) := by
  unfold addFileAttributes
  split <;> simp [Metadata.get_set_other, Metadata.get_set_self]

theorem exif_key_ne (k : String) : "EXIF:" ++ k ≠ "File:LastModified" := by
  intro h
  have h2 := congrArg String.data h
  simp at h2

theorem addExifTags_get_lastModified (tags : List (String × Option String)) (m : Metadata) :
    (addExifTags tags m).get "File:LastModified" = m.get "File:LastModified" := by
  induction tags generalizing m with
  | nil => rfl
  | cons e rest ih =>
    obtain ⟨k, v⟩ := e
    cases v with
    | none => simpa [addExifTags] using ih m
    | some value =>
      simp only [addExifTags]
      rw [ih, Metadata.get_set_other _ _ _ _ (exif_key_ne k)]


/-! ## C3: the generic attribute extractor -/

/-- C3 (the code departs from it): a file whose last-modified timestamp is present and equal to 0,
the epoch, gets no `File:LastModified` entry. The guard `if (file.lastModified)` is meant to test
that the timestamp is there and tests the number for truthiness instead, so it drops the one valid
timestamp that is falsy; the loop over the EXIF tags tests `!== undefined && !== null` and keeps
such values. -/
theorem extractExtendedAttributes_epoch_stamp_omitted :
    (File.mk "old.txt" "text/plain" (some 0) [104, 105]).lastModified.isSome = true ∧
      ∃ md, extractExtendedAttributes drawA (File.mk "old.txt" "text/plain" (some 0) [104, 105]) []
          = some md ∧ md.get "File:LastModified" = none := by
  refine ⟨rfl, _, rfl, ?_⟩
  decide

/-- What `extractExtendedAttributes` does for every file whose last-modified timestamp, when
present, is a valid time value: run on a mapping that has no `File:LastModified` entry yet, it
completes and its mapping holds `File:Name` = the filename, `File:Size` = the decimal byte length
followed by " bytes", `File:Type` = the declared type ("unknown" when empty); it holds
`File:LastModified`, equal to the ISO-8601 rendering of the timestamp, exactly when the timestamp
is present and not zero. -/
theorem extractExtendedAttributes_entries (draw : Draw) (file : File) (md : Metadata)
    (hfresh : md.get "File:LastModified" = none)
    (hvalid : ∀ t, file.lastModified = some t → -maxTimeValue ≤ t ∧ t ≤ maxTimeValue) :
    ∃ md', extractExtendedAttributes draw file md = some md' ∧
      md'.get "File:Name" = some file.name ∧
      md'.get "File:Size" = some (toString file.bytes.length ++ " bytes") ∧
      md'.get "File:Type" = some (if file.type = "" then "unknown" else file.type) ∧
      ((md'.get "File:LastModified").isSome = true ↔
        ∃ t, file.lastModified = some t ∧ t ≠ 0) ∧
      ∀ t, file.lastModified = some t → t ≠ 0 →
        md'.get "File:LastModified" = toISOString t := by
  cases hlm : file.lastModified with
  | none =>
    refine ⟨addFileAttributes draw file md, ?_, addFileAttributes_get_name _ _ _,
      addFileAttributes_get_size _ _ _, addFileAttributes_get_type _ _ _, ?_, ?_⟩
    · simp [extractExtendedAttributes, addLastModified, hlm, truthyStamp]
    · simp [addFileAttributes_get_lastModified, hfresh]
    · intro t ht
      cases ht
  | some t0 =>
    have hv := hvalid t0 hlm
    by_cases h0 : t0 = 0
    · refine ⟨addFileAttributes draw file md, ?_, addFileAttributes_get_name _ _ _,
        addFileAttributes_get_size _ _ _, addFileAttributes_get_type _ _ _, ?_, ?_⟩
      · simp [extractExtendedAttributes, addLastModified, hlm, truthyStamp, h0]
      · simp [addFileAttributes_get_lastModified, hfresh, h0]
      · intro t ht hne
        cases ht
        exact absurd h0 hne
    · refine ⟨addFileAttributes draw file (md.set "File:LastModified" (formatISO t0)), ?_,
        addFileAttributes_get_name _ _ _, addFileAttributes_get_size _ _ _,
        addFileAttributes_get_type _ _ _, ?_, ?_⟩
      · simp [extractExtendedAttributes, addLastModified, hlm, truthyStamp, h0,
          toISOString_of_valid t0 hv]
      · simp [addFileAttributes_get_lastModified, Metadata.get_set_self, h0]
      · intro t ht _
        cases ht
        rw [addFileAttributes_get_lastModified, Metadata.get_set_self,
          toISOString_of_valid t0 hv]

/-- An instance of the preceding theorem: the text file `notes.txt`, stamped
2020-09-13T12:26:40Z, analysed from the empty mapping. -/
theorem extractExtendedAttributes_entries_witness :
    (Metadata.get [] "File:LastModified" = none ∧
      ∀ t, notesTxt.lastModified = some t → -maxTimeValue ≤ t ∧ t ≤ maxTimeValue) ∧
    ∃ md', extractExtendedAttributes drawA notesTxt [] = some md' ∧
      md'.get "File:Name" = some notesTxt.name ∧
      md'.get "File:Size" = some (toString notesTxt.bytes.length ++ " bytes") ∧
      md'.get "File:Type" = some (if notesTxt.type = "" then "unknown" else notesTxt.type) ∧
      ((md'.get "File:LastModified").isSome = true ↔
        ∃ t, notesTxt.lastModified = some t ∧ t ≠ 0) ∧
      ∀ t, notesTxt.lastModified = some t → t ≠ 0 →
        md'.get "File:LastModified" = toISOString t :=
  have hvalid : ∀ t, notesTxt.lastModified = some t → -maxTimeValue ≤ t ∧ t ≤ maxTimeValue := by
    intro t ht
    cases ht
    decide
  ⟨⟨rfl, hvalid⟩, extractExtendedAttributes_entries drawA notesTxt [] rfl hvalid⟩


/-! ## Lemmas on the batch and the cards -/

theorem filesGet_filesSet_self (files : List (String × FileData)) (fileId : String)
    (fd : FileData) : filesGet (filesSet files fileId fd) fileId = some fd := by
  induction files with
  | nil => simp [filesSet, filesGet]
  | cons e rest ih =>
    obtain ⟨k, v⟩ := e
    by_cases h : k = fileId
    · simp [filesSet, filesGet, h]
    · simp [filesSet, filesGet, h, ih]

theorem filesGet_filesSet_other (files : List (String × FileData)) (fileId other : String)
    (fd : FileData) (h : fileId ≠ other) :
    filesGet (filesSet files fileId fd) other = filesGet files other := by
  induction files with
  | nil => simp [filesSet, filesGet, h]
  | cons e rest ih =>
    obtain ⟨k, v⟩ := e
    by_cases h0 : k = fileId
    · subst h0
      simp [filesSet, filesGet, h]
    · by_cases h1 : k = other
      · subst h1
        simp [filesSet, filesGet, h0]
      · simp [filesSet, filesGet, h0, h1, ih]

theorem cardFind_cardModifyAt (cards : List (String × Card)) (fileId other : String)
    (part part2 : Part) (f : Card → Card) (hf : ∀ c, (f c).elements = c.elements) :
    (cardFind (cardModifyAt cards fileId part f) other part2).isSome
      = (cardFind cards other part2).isSome := by
  induction cards with
  | nil => rfl
  | cons e rest ih =>
    obtain ⟨k, c⟩ := e
    simp only [cardModifyAt]
    by_cases h2 : k = other ∧ c.elements.has part2 = true
    · split
      · simp only [cardFind, hf]
        rw [if_pos h2, if_pos h2]
        rfl
      · simp only [cardFind]
        rw [if_pos h2, if_pos h2]
    · split
      · simp only [cardFind, hf]
        rw [if_neg h2, if_neg h2]
      · simp only [cardFind]
        rw [if_neg h2, if_neg h2]
        exact ih

theorem cardFind_cardModifyAt_self (cards : List (String × Card)) (fileId : String)
    (part : Part) (f : Card → Card) (hf : ∀ c, (f c).elements = c.elements) :
    cardFind (cardModifyAt cards fileId part f) fileId part
      = (cardFind cards fileId part).map f := by
  induction cards with
  | nil => rfl
  | cons e rest ih =>
    obtain ⟨k, c⟩ := e
    simp only [cardModifyAt]
    by_cases h1 : k = fileId ∧ c.elements.has part = true
    · rw [if_pos h1]
      simp only [cardFind, hf]
      rw [if_pos h1, if_pos h1]
      rfl
    · rw [if_neg h1]
      simp only [cardFind]
      rw [if_neg h1, if_neg h1]
      exact ih

theorem cardModifyAt_twice (cards : List (String × Card)) (fileId : String) (part : Part)
    (f g : Card → Card) (hf : ∀ c, (f c).elements = c.elements) :
    cardModifyAt (cardModifyAt cards fileId part f) fileId part g
      = cardModifyAt cards fileId part (fun c => g (f c)) := by
  induction cards with
  | nil => rfl
  | cons e rest ih =>
    obtain ⟨k, c⟩ := e
    simp only [cardModifyAt]
    by_cases h1 : k = fileId ∧ c.elements.has part = true
    · rw [if_pos h1, if_pos h1]
      simp only [cardModifyAt, hf]
      rw [if_pos h1]
    · rw [if_neg h1, if_neg h1]
      simp only [cardModifyAt]
      rw [if_neg h1, ih]

theorem cardFind_setStatus (s : App) (fileId other : String) (st : Status) (part : Part) :
    (cardFind (setStatus s fileId st).cards other part).isSome
      = (cardFind s.cards other part).isSome :=
  cardFind_cardModifyAt s.cards fileId other Part.status part _ (fun _ => rfl)

theorem cardFind_renderMetadata (s : App) (fileId other : String) (md : Metadata)
    (part : Part) :
    (cardFind (renderMetadata s fileId md).cards other part).isSome
      = (cardFind s.cards other part).isSome :=
  cardFind_cardModifyAt s.cards fileId other Part.metadataSection part _ (fun _ => rfl)

theorem setStatus_twice (s : App) (fileId : String) (st1 st2 : Status) :
    setStatus (setStatus s fileId st1) fileId st2 = setStatus s fileId st2 := by
  have h := cardModifyAt_twice s.cards fileId Part.status
    (fun c => { c with status := st1 }) (fun c => { c with status := st2 }) (fun _ => rfl)
  simp only [setStatus]
  rw [h]

theorem statusOf_setStatus (s : App) (fileId : String) (st : Status)
    (h : (cardFind s.cards fileId Part.status).isSome = true) :
    statusOf (setStatus s fileId st) fileId = some st := by
  obtain ⟨c, hc⟩ := Option.isSome_iff_exists.mp h
  simp [statusOf, setStatus, cardFind_cardModifyAt_self, hc]

/-! ## C1: the ingestion gate -/

/-- C1 (the code departs from it): `handleFiles` is handed an image that does not decode, then a
text file, then a HEIC file. The loop never gets past `await this.analyzeFile` of the first file:
the text file, which is not HEIC, gets no record, and the HEIC file gets no alert. -/
theorem handleFiles_stalls_before_later_files :
    isHEIC sampleHost notesTxt = false ∧ isHEIC sampleHost photoHeic = true ∧
    handleFiles sampleHost App.empty [(corruptPng, drawA), (notesTxt, drawB), (photoHeic, drawB)] =
      ⟨⟨[("file_1700000000000_k3x9q2m1z", ⟨corruptPng, none, false, none, none⟩)],
        [("file_1700000000000_k3x9q2m1z", ⟨Status.analyzing, [], intactCard⟩)], [], []⟩,
       Settled.pending⟩ := by
  refine ⟨?_, ?_, ?_⟩ <;> decide

/-- The test of the loop body itself is the one C1 describes: a file the loop reaches is answered
with an alert naming it and the batch is left as it was exactly when `isHEIC` holds; otherwise
the record `{file, metadata: null, cleaned: false}` is stored under the new identifier before
the analysis starts. -/
theorem handleFiles_head (host : Host) (s : App) (file : File) (draw : Draw)
    (rest : List (File × Draw)) :
    (isHEIC host file = true →
      handleFiles host s ((file, draw) :: rest)
        = handleFiles host { s with alerts := s.alerts ++ [heicAlert file] } rest) ∧
    (isHEIC host file = false →
      handleFiles host s ((file, draw) :: rest)
        = (match analyzeFile host draw
              (renderFileCard host
                (storeRecord s (newFileId draw) ⟨file, none, false, none, none⟩)
                (newFileId draw)) (newFileId draw) with
            | ⟨s3, Settled.resolved⟩ => handleFiles host s3 rest
            | r => r) ∧
      filesGet (renderFileCard host
          (storeRecord s (newFileId draw) ⟨file, none, false, none, none⟩)
          (newFileId draw)).files (newFileId draw) = some ⟨file, none, false, none, none⟩) := by
  constructor
  · intro h
    simp [handleFiles, h, showAlert]
  · intro h
    constructor
    · simp [handleFiles, h]
    · simp [renderFileCard, storeRecord, filesGet_filesSet_self]

/-! ## C5: extraction of an image that does not decode -/

/-- C5 (the code departs from it): for an accepted image file whose bytes do not decode,
`extractImageMetadata` never resolves, so `analyzeFile` stays pending at its `await`: the generic
attribute extractor does not run, no mapping is stored on the record and the status stays
`Analyzing...`. -/
theorem analyzeFile_stalls_on_undecodable_image :
    startsWith corruptPng.type "image/" = true ∧ isHEIC sampleHost corruptPng = false ∧
    sampleHost.loadImage corruptPng = ImageLoad.decodeError ∧
    extractImageMetadata sampleHost corruptPng [] = none ∧
    analyzeFile sampleHost drawA (freshBatch "file_1" corruptPng) "file_1"
      = ⟨freshBatch "file_1" corruptPng, Settled.pending⟩ ∧
    storedMetadata (freshBatch "file_1" corruptPng) "file_1" = none ∧
    statusOf (freshBatch "file_1" corruptPng) "file_1" = some Status.analyzing := by
  refine ⟨?_, ?_, ?_, ?_, ?_, ?_, ?_⟩ <;> decide


/-! ## C4: repeated extraction -/

theorem addFileAttributes_get_indep (d1 d2 : Draw) (file : File) (m : Metadata) (k : String)
    (h1 : k ≠ "macOS:WhereFrom") (h2 : k ≠ "macOS:DownloadDate") :
    (addFileAttributes d1 file m).get k = (addFileAttributes d2 file m).get k := by
  unfold addFileAttributes
  split <;> split <;>
    simp [Metadata.get_set_other _ _ _ _ (Ne.symm h1), Metadata.get_set_other _ _ _ _ (Ne.symm h2)]

theorem collectMetadata_fate_indep (host : Host) (d1 d2 : Draw) (file : File) :
    (collectMetadata host d1 file).1 = (collectMetadata host d2 file).1 := by
  unfold collectMetadata
  cases (if startsWith file.type "image/" then extractImageMetadata host file [] else some []) with
  | none => rfl
  | some m1 =>
    simp only
    unfold extractExtendedAttributes
    cases addLastModified file
      (if file.type = "application/pdf" then extractPDFMetadata host file m1 else m1) <;> rfl

theorem collectMetadata_get_indep (host : Host) (d1 d2 : Draw) (file : File) (k : String)
    (h1 : k ≠ "macOS:WhereFrom") (h2 : k ≠ "macOS:DownloadDate") :
    (collectMetadata host d1 file).2.get k = (collectMetadata host d2 file).2.get k := by
  unfold collectMetadata
  cases (if startsWith file.type "image/" then extractImageMetadata host file [] else some []) with
  | none => rfl
  | some m1 =>
    simp only
    unfold extractExtendedAttributes
    cases addLastModified file
        (if file.type = "application/pdf" then extractPDFMetadata host file m1 else m1) with
    | none => rfl
    | some m => exact addFileAttributes_get_indep d1 d2 file m k h1 h2

theorem collectMetadata_same_draws (host : Host) (d1 d2 : Draw) (file : File)
    (hw : d1.whereFrom = d2.whereFrom) (ht : d1.downloadTime = d2.downloadTime) :
    collectMetadata host d1 file = collectMetadata host d2 file := by
  unfold collectMetadata extractExtendedAttributes addFileAttributes
  rw [hw, ht]

/-- The three ways `finishAnalysis` ends, by the elements the card of the record holds. -/
theorem finishAnalysis_eq (s : App) (fileId : String) (fd : FileData) (md : Metadata) :
    finishAnalysis s fileId fd md =
      if (cardFind s.cards fileId Part.metadataSection).isSome = true then
        if (cardFind s.cards fileId Part.status).isSome = true then
          ⟨setStatus (renderMetadata (storeRecord s fileId { fd with metadata := some md })
            fileId md) fileId Status.ready, Settled.resolved⟩
        else
          ⟨renderMetadata (storeRecord s fileId { fd with metadata := some md }) fileId md,
            Settled.rejected⟩
      else ⟨storeRecord s fileId { fd with metadata := some md }, Settled.rejected⟩ := by
  have hr := cardFind_renderMetadata (storeRecord s fileId { fd with metadata := some md })
    fileId fileId md Part.status
  have hcards : (storeRecord s fileId { fd with metadata := some md }).cards = s.cards := rfl
  rw [hcards] at hr
  unfold finishAnalysis
  simp only [hcards]
  cases hm : cardFind s.cards fileId Part.metadataSection with
  | none => simp
  | some c =>
    simp only [Option.isSome_some, if_true]
    cases hs : cardFind (renderMetadata (storeRecord s fileId { fd with metadata := some md })
        fileId md).cards fileId Part.status with
    | none =>
      rw [hs] at hr
      simp [← hr]
    | some c2 =>
      rw [hs] at hr
      simp [← hr]

/-- The result of `analyzeFile` on a record whose card holds its progress bar, in terms of
`collectMetadata`. -/
theorem analyzeFile_of_record (host : Host) (draw : Draw) (s : App) (fileId : String)
    (fd : FileData) (hfd : filesGet s.files fileId = some fd)
    (hp : (cardFind s.cards fileId Part.progressFill).isSome = true) :
    analyzeFile host draw s fileId =
      if (collectMetadata host draw fd.file).1 = Settled.resolved then
        finishAnalysis s fileId fd (collectMetadata host draw fd.file).2
      else ⟨s, (collectMetadata host draw fd.file).1⟩ := by
  obtain ⟨c, hc⟩ := Option.isSome_iff_exists.mp hp
  unfold analyzeFile
  rw [hfd, hc]
  simp only
  generalize collectMetadata host draw fd.file = r
  obtain ⟨fate, md⟩ := r
  cases fate <;> simp

theorem analyzeFile_no_progress (host : Host) (draw : Draw) (s : App) (fileId : String)
    (hp : cardFind s.cards fileId Part.progressFill = none) :
    analyzeFile host draw s fileId = ⟨s, Settled.rejected⟩ := by
  unfold analyzeFile
  cases filesGet s.files fileId with
  | none => rfl
  | some fd => simp only [hp]

theorem finishAnalysis_fate_indep (s : App) (fileId : String) (fd : FileData)
    (md1 md2 : Metadata) :
    (finishAnalysis s fileId fd md1).fate = (finishAnalysis s fileId fd md2).fate := by
  rw [finishAnalysis_eq, finishAnalysis_eq]
  split
  · split <;> rfl
  · rfl

theorem finishAnalysis_files (s : App) (fileId : String) (fd : FileData) (md : Metadata) :
    (finishAnalysis s fileId fd md).app.files
      = filesSet s.files fileId { fd with metadata := some md } := by
  rw [finishAnalysis_eq]
  split
  · split <;> rfl
  · rfl

theorem finishAnalysis_alerts (s : App) (fileId : String) (fd : FileData) (md : Metadata) :
    (finishAnalysis s fileId fd md).app.alerts = s.alerts := by
  rw [finishAnalysis_eq]
  split
  · split <;> rfl
  · rfl

theorem storedMetadata_after_analysis (s : App) (fileId : String) (fd : FileData)
    (md : Metadata) :
    storedMetadata (finishAnalysis s fileId fd md).app fileId = some md := by
  simp [storedMetadata, finishAnalysis_files, filesGet_filesSet_self]

/-- C4, as stated, fails: the same text file analysed twice from the same state, once with
`Math.random() > 0.5` false and once with it true, gets two different metadata mappings. -/
theorem analyzeFile_not_deterministic :
    storedMetadata (analyzeFile sampleHost drawA (freshBatch "file_1" notesTxt) "file_1").app
        "file_1"
      ≠ storedMetadata (analyzeFile sampleHost drawB (freshBatch "file_1" notesTxt) "file_1").app
        "file_1" := by
  decide

/-- C4, amended: two runs of `analyzeFile` on the same unchanged input settle the same way and
store metadata mappings that agree on every key other than `macOS:WhereFrom` and
`macOS:DownloadDate`; the two runs leave identical states, hence identical mappings, when they
see the same `Math.random()` outcome and the same clock reading. -/
theorem analyzeFile_deterministic_modulo_draws (host : Host) (d1 d2 : Draw) (s : App)
    (fileId : String) :
    (analyzeFile host d1 s fileId).fate = (analyzeFile host d2 s fileId).fate ∧
    (∀ k, k ≠ "macOS:WhereFrom" → k ≠ "macOS:DownloadDate" →
      (storedMetadata (analyzeFile host d1 s fileId).app fileId).bind (fun m => m.get k)
        = (storedMetadata (analyzeFile host d2 s fileId).app fileId).bind (fun m => m.get k)) ∧
    (d1.whereFrom = d2.whereFrom → d1.downloadTime = d2.downloadTime →
      analyzeFile host d1 s fileId = analyzeFile host d2 s fileId) := by
  cases hfd : filesGet s.files fileId with
  | none => simp [analyzeFile, hfd]
  | some fd =>
    cases hc : cardFind s.cards fileId Part.progressFill with
    | none =>
      rw [analyzeFile_no_progress host d1 s fileId hc, analyzeFile_no_progress host d2 s fileId hc]
      simp
    | some c =>
      have hp : (cardFind s.cards fileId Part.progressFill).isSome = true := by simp [hc]
      rw [analyzeFile_of_record host d1 s fileId fd hfd hp,
        analyzeFile_of_record host d2 s fileId fd hfd hp]
      have hf := collectMetadata_fate_indep host d1 d2 fd.file
      refine ⟨?_, ?_, ?_⟩
      · rw [hf]
        split
        · exact finishAnalysis_fate_indep s fileId fd _ _
        · rfl
      · intro k h1 h2
        have hg := collectMetadata_get_indep host d1 d2 fd.file k h1 h2
        rw [hf]
        split
        · simp only [storedMetadata_after_analysis, Option.some_bind]
          exact hg
        · rfl
      · intro hw ht
        rw [collectMetadata_same_draws host d1 d2 fd.file hw ht]

/-- Witness for C4: the text file analysed with two different draws; the key `File:Name` is
neither of the two simulated entries. -/
theorem analyzeFile_deterministic_modulo_draws_witness :
    ("File:Name" ≠ "macOS:WhereFrom" ∧ "File:Name" ≠ "macOS:DownloadDate") ∧
    (storedMetadata (analyzeFile sampleHost drawA (freshBatch "file_1" notesTxt) "file_1").app
        "file_1").bind (fun m => m.get "File:Name")
      = (storedMetadata (analyzeFile sampleHost drawB (freshBatch "file_1" notesTxt) "file_1").app
        "file_1").bind (fun m => m.get "File:Name") ∧
    (drawA.whereFrom = drawA.whereFrom ∧ drawA.downloadTime = drawA.downloadTime) ∧
    analyzeFile sampleHost drawA (freshBatch "file_1" notesTxt) "file_1"
      = analyzeFile sampleHost drawA (freshBatch "file_1" notesTxt) "file_1" :=
  ⟨⟨by decide, by decide⟩,
    (analyzeFile_deterministic_modulo_draws sampleHost drawA drawB (freshBatch "file_1" notesTxt)
      "file_1").2.1 "File:Name" (by decide) (by decide),
    ⟨rfl, rfl⟩,
    (analyzeFile_deterministic_modulo_draws sampleHost drawA drawA (freshBatch "file_1" notesTxt)
      "file_1").2.2 rfl rfl⟩


/-! ## C2: the PDF extractor -/

theorem dropLiteral_append (lit r : List Char) : dropLiteral lit (lit ++ r) = some r := by
  induction lit with
  | nil => cases r <;> rfl
  | cons a lit ih => simp [dropLiteral, ih]

theorem dropLiteral_some (lit s r : List Char) (h : dropLiteral lit s = some r) :
    s = lit ++ r := by
  induction lit generalizing s with
  | nil =>
    cases s <;> simp [dropLiteral] at h <;> simp [h]
  | cons a lit ih =>
    cases s with
    | nil => simp [dropLiteral] at h
    | cons c s =>
      by_cases hac : a = c
      · simp [dropLiteral, hac] at h
        simp [hac, ih s h]
      · simp [dropLiteral, hac] at h

theorem lazyGroup_append (body post : List Char)
    (hbody : ∀ c ∈ body, isLineTerminator c = false) :
    lazyGroup (body ++ [')'] ++ post) = some (body.takeWhile (fun c => c != ')')) := by
  induction body with
  | nil => simp [lazyGroup]
  | cons c body ih =>
    have hc : isLineTerminator c = false := hbody c (List.mem_cons_self _ _)
    have ih2 := ih (fun d hd => hbody d (List.mem_cons_of_mem _ hd))
    by_cases hp : c = ')'
    · simp [lazyGroup, hp]
    · have hstep : lazyGroup (c :: (body ++ [')'] ++ post))
          = (lazyGroup (body ++ [')'] ++ post)).map (fun v => c :: v) := by
        simp [lazyGroup, hp, hc]
      have hcons : c :: body ++ [')'] ++ post = c :: (body ++ [')'] ++ post) := by simp
      rw [hcons, hstep, ih2]
      simp [List.takeWhile_cons, hp]

theorem lazyGroup_some (s v : List Char) (h : lazyGroup s = some v) :
    (∃ post, s = v ++ [')'] ++ post) ∧ (∀ c ∈ v, isLineTerminator c = false) ∧
      v.takeWhile (fun c => c != ')') = v := by
  induction s generalizing v with
  | nil => simp [lazyGroup] at h
  | cons c s ih =>
    by_cases hp : c = ')'
    · simp [lazyGroup, hp] at h
      subst h
      exact ⟨⟨s, by simp [hp]⟩, by simp, by simp⟩
    · by_cases hl : isLineTerminator c = true
      · simp [lazyGroup, hp, hl] at h
      · cases hw : lazyGroup s with
        | none => simp [lazyGroup, hp, hl, hw] at h
        | some w =>
          simp [lazyGroup, hp, hl, hw] at h
          subst h
          obtain ⟨⟨post, hpost⟩, hlt, htw⟩ := ih w hw
          refine ⟨⟨post, by simp [hpost]⟩, ?_, ?_⟩
          · intro d hd
            rcases List.mem_cons.mp hd with rfl | hd
            · simpa using hl
            · exact hlt d hd
          · simp [List.takeWhile_cons, hp, htw]

theorem dropWhile_space_paren (ws t : List Char) (hws : ∀ c ∈ ws, isWhiteSpace c = true) :
    (ws ++ '(' :: t).dropWhile isWhiteSpace = '(' :: t := by
  induction ws with
  | nil =>
    have : isWhiteSpace '(' = false := by decide
    simp [List.dropWhile, this]
  | cons c ws ih =>
    have hc := hws c (List.mem_cons_self _ _)
    simp [List.dropWhile, hc, ih (fun d hd => hws d (List.mem_cons_of_mem _ hd))]

theorem matchTail_of_entry (ws body post : List Char)
    (hws : ∀ c ∈ ws, isWhiteSpace c = true) (hbody : ∀ c ∈ body, isLineTerminator c = false) :
    matchTail (ws ++ ['('] ++ body ++ [')'] ++ post)
      = some (body.takeWhile (fun c => c != ')')) := by
  have h1 : ws ++ ['('] ++ body ++ [')'] ++ post = ws ++ '(' :: (body ++ [')'] ++ post) := by
    simp
  rw [h1, matchTail, dropWhile_space_paren ws _ hws]
  exact lazyGroup_append body post hbody

theorem matchTail_some (r v : List Char) (h : matchTail r = some v) :
    ∃ ws post, r = ws ++ ['('] ++ v ++ [')'] ++ post ∧
      (∀ c ∈ ws, isWhiteSpace c = true) ∧ (∀ c ∈ v, isLineTerminator c = false) ∧
      v.takeWhile (fun c => c != ')') = v := by
  have hsplit := List.takeWhile_append_dropWhile isWhiteSpace r
  have hwsp : ∀ d ∈ r.takeWhile isWhiteSpace, isWhiteSpace d = true :=
    fun d hd => List.mem_takeWhile_imp hd
  cases hdw : r.dropWhile isWhiteSpace with
  | nil => simp [matchTail, hdw] at h
  | cons c t =>
    by_cases hc : c = '('
    · subst hc
      simp only [matchTail, hdw] at h
      obtain ⟨⟨post, hpost⟩, hlt, htw⟩ := lazyGroup_some t v h
      rw [hdw] at hsplit
      generalize r.takeWhile isWhiteSpace = ws at hsplit hwsp
      refine ⟨ws, post, ?_, hwsp, hlt, htw⟩
      rw [← hsplit, hpost]
      simp
    · exfalso
      simp only [matchTail, hdw] at h
      revert h
      split
      · rename_i heq
        simp at heq
        exact absurd heq.1 hc
      · simp

theorem matchHere_of_entry (key : String) (ws body post : List Char)
    (hws : ∀ c ∈ ws, isWhiteSpace c = true) (hbody : ∀ c ∈ body, isLineTerminator c = false) :
    matchHere key (('/' :: key.toList) ++ ws ++ ['('] ++ body ++ [')'] ++ post)
      = some (body.takeWhile (fun c => c != ')')) := by
  have h1 : ('/' :: key.toList) ++ ws ++ ['('] ++ body ++ [')'] ++ post
      = ('/' :: key.toList) ++ (ws ++ ['('] ++ body ++ [')'] ++ post) := by simp
  rw [h1, matchHere, dropLiteral_append]
  exact matchTail_of_entry ws body post hws hbody

theorem matchHere_some (key : String) (s v : List Char) (h : matchHere key s = some v) :
    ∃ ws post, s = ('/' :: key.toList) ++ ws ++ ['('] ++ v ++ [')'] ++ post ∧
      (∀ c ∈ ws, isWhiteSpace c = true) ∧ (∀ c ∈ v, isLineTerminator c = false) ∧
      v.takeWhile (fun c => c != ')') = v := by
  rw [matchHere] at h
  cases hd : dropLiteral ('/' :: key.toList) s with
  | none =>
    rw [hd] at h
    cases h
  | some r =>
    rw [hd] at h
    obtain ⟨ws, post, hr, hws, hlt, htw⟩ := matchTail_some r v h
    refine ⟨ws, post, ?_, hws, hlt, htw⟩
    rw [dropLiteral_some _ _ _ hd, hr]
    simp

/-- The first match: `regexCapture` returns the group of the leftmost position at which the
anchored pattern matches. -/
theorem regexCapture_of_leftmost (key : String) (pre suf v : List Char)
    (hm : matchHere key suf = some v)
    (hleft : ∀ pre' suf', pre ++ suf = pre' ++ suf' → pre'.length < pre.length →
      matchHere key suf' = none) :
    regexCapture key (pre ++ suf) = some v := by
  induction pre with
  | nil =>
    cases suf with
    | nil => simp [matchHere, dropLiteral] at hm
    | cons c s => simp [regexCapture, hm]
  | cons a pre ih =>
    have h0 : matchHere key (a :: pre ++ suf) = none :=
      hleft [] (a :: pre ++ suf) (by simp) (by simp)
    have ih2 := ih (fun pre' suf' heq hlt =>
      hleft (a :: pre') suf' (by simp [heq]) (by simpa using hlt))
    simp only [List.cons_append] at h0 ⊢
    rw [regexCapture, h0]
    exact ih2

theorem regexCapture_some (key : String) (s v : List Char) (h : regexCapture key s = some v) :
    ∃ pre suf, s = pre ++ suf ∧ matchHere key suf = some v ∧
      ∀ pre' suf', s = pre' ++ suf' → pre'.length < pre.length → matchHere key suf' = none := by
  induction s with
  | nil => simp [regexCapture] at h
  | cons c s ih =>
    cases hm : matchHere key (c :: s) with
    | some w =>
      rw [regexCapture, hm] at h
      refine ⟨[], c :: s, rfl, by rw [hm]; exact h, ?_⟩
      intro pre' suf' _ hlt
      simp at hlt
    | none =>
      rw [regexCapture, hm] at h
      obtain ⟨pre, suf, hs, hsuf, hleft⟩ := ih h
      refine ⟨c :: pre, suf, by simp [hs], hsuf, ?_⟩
      intro pre' suf' heq hlt
      cases pre' with
      | nil =>
        simp only [List.nil_append] at heq
        rw [← heq]
        exact hm
      | cons a p =>
        simp only [List.cons_append, List.cons.injEq] at heq
        exact hleft p suf' heq.2 (by simpa using hlt)

theorem regexCapture_none (key : String) (pre suf : List Char)
    (h : regexCapture key (pre ++ suf) = none) : matchHere key suf = none := by
  induction pre with
  | nil =>
    cases suf with
    | nil => simp [matchHere, dropLiteral]
    | cons c s =>
      simp only [List.nil_append] at h
      rw [regexCapture] at h
      cases hm : matchHere key (c :: s) with
      | none => rfl
      | some w => simp [hm] at h
  | cons a pre ih =>
    simp only [List.cons_append] at h
    rw [regexCapture] at h
    cases hm : matchHere key (a :: (pre ++ suf)) with
    | none =>
      rw [hm] at h
      exact ih h
    | some w => simp [hm] at h

theorem pdf_key_inj (a b : String) (h : "PDF:" ++ a = "PDF:" ++ b) : a = b := by
  have h2 := congrArg String.data h
  simp at h2
  exact String.ext h2

theorem applyPatterns_get_other (text : List Char) (keys : List String) (m : Metadata)
    (k : String) (h : ∀ K ∈ keys, "PDF:" ++ K ≠ k) :
    (applyPatterns text keys m).get k = m.get k := by
  induction keys generalizing m with
  | nil => rfl
  | cons K rest ih =>
    have hrest : ∀ K' ∈ rest, "PDF:" ++ K' ≠ k := fun K' hK' => h K' (List.mem_cons_of_mem _ hK')
    have hK : "PDF:" ++ K ≠ k := h K (List.mem_cons_self _ _)
    cases hc : regexCapture K text with
    | none => simp only [applyPatterns, hc, ih m hrest]
    | some v =>
      simp only [applyPatterns, hc, ih _ hrest]
      exact Metadata.get_set_other _ _ _ _ hK

theorem applyPatterns_get_mem (text : List Char) (keys : List String) (m : Metadata)
    (K : String) (hnd : keys.Nodup) (hK : K ∈ keys) :
    (applyPatterns text keys m).get ("PDF:" ++ K) =
      match regexCapture K text with
      | some v => some (String.mk v)
      | none => m.get ("PDF:" ++ K) := by
  induction keys generalizing m with
  | nil => cases hK
  | cons K0 rest ih =>
    have hnd2 := List.nodup_cons.mp hnd
    by_cases h0 : K = K0
    · subst h0
      have hother : ∀ K' ∈ rest, "PDF:" ++ K' ≠ "PDF:" ++ K := by
        intro K' hK' heq
        exact hnd2.1 (pdf_key_inj _ _ heq ▸ hK')
      cases hc : regexCapture K text with
      | none => simp only [applyPatterns, hc, applyPatterns_get_other text rest _ _ hother]
      | some v =>
        simp only [applyPatterns, hc, applyPatterns_get_other text rest _ _ hother]
        exact Metadata.get_set_self _ _ _
    · have hmem : K ∈ rest := by
        rcases List.mem_cons.mp hK with h | h
        · exact absurd h h0
        · exact h
      have hne : "PDF:" ++ K0 ≠ "PDF:" ++ K := fun heq => h0 (pdf_key_inj _ _ heq).symm
      cases hc0 : regexCapture K0 text with
      | none => simp only [applyPatterns, hc0, ih m hnd2.2 hmem]
      | some v0 =>
        simp only [applyPatterns, hc0, ih _ hnd2.2 hmem]
        cases regexCapture K text with
        | none => exact Metadata.get_set_other _ _ _ _ hne
        | some v => rfl

theorem entry_split (key : String) (pre ws body post : List Char) :
    pre ++ ('/' :: key.toList) ++ ws ++ ['('] ++ body ++ [')'] ++ post
      = pre ++ (('/' :: key.toList) ++ ws ++ ['('] ++ body ++ [')'] ++ post) := by
  simp

/-- An entry of the text is matched by the anchored pattern at its position. -/
theorem matchHere_of_lineEntry (key : String) (text pre ws body post : List Char)
    (h : LineEntryAt key text pre ws body post) :
    ∃ suf, text = pre ++ suf ∧
      matchHere key suf = some (body.takeWhile (fun c => c != ')')) :=
  ⟨_, h.1.1.trans (entry_split key pre ws body post),
    matchHere_of_entry key ws body post h.1.2 h.2⟩

/-- A match of the anchored pattern at a position is an entry of the text there. -/
theorem lineEntry_of_matchHere (key : String) (pre suf v : List Char)
    (h : matchHere key suf = some v) :
    ∃ ws post, LineEntryAt key (pre ++ suf) pre ws v post ∧
      v.takeWhile (fun c => c != ')') = v := by
  obtain ⟨ws, post, hs, hws, hlt, htw⟩ := matchHere_some key suf v h
  exact ⟨ws, post, ⟨⟨by rw [hs, entry_split], hws⟩, hlt⟩, htw⟩


theorem extractPDFMetadata_get (host : Host) (file : File) (m : Metadata) (K : String)
    (hK : K ∈ pdfKeys) :
    (extractPDFMetadata host file m).get ("PDF:" ++ K) =
      match regexCapture K (pdfText host file).toList with
      | some v => some (String.mk v)
      | none => m.get ("PDF:" ++ K) :=
  applyPatterns_get_mem _ pdfKeys m K (by decide) hK

/-- The scenario of the specification: a title and an author in the first 10 KB, no creator. -/
theorem extractPDFMetadata_report :
    (extractPDFMetadata sampleHost reportPdf []).get "PDF:Title" = some "Report" ∧
    (extractPDFMetadata sampleHost reportPdf []).get "PDF:Author" = some "Jane" ∧
    (extractPDFMetadata sampleHost reportPdf []).get "PDF:Creator" = none ∧
    extractPDFMetadata sampleHost reportPdf [] = [("PDF:Title", "Report"), ("PDF:Author", "Jane")] := by
  refine ⟨?_, ?_, ?_, ?_⟩ <;> decide

/-- C2, as stated, fails: the decoded text holds "/Title", whitespace, "(", the characters
`a`, line feed, `b`, and ")", yet no `PDF:Title` entry is added, because `.` in the pattern does
not match a line terminator. -/
theorem extractPDFMetadata_skips_two_line_entry :
    EntryAt "Title" (pdfText sampleHost twoLinePdf).toList [] [' '] ['a', '\n', 'b'] [] ∧
    (extractPDFMetadata sampleHost twoLinePdf []).get "PDF:Title" = none := by
  refine ⟨⟨?_, ?_⟩, ?_⟩ <;> decide

/-- C2, amended: for every PDF input and every key K among Title, Author, Creator, Producer,
CreationDate, ModDate, `extractPDFMetadata` sets `PDF:K` exactly when the text decoded from the
first 10 KB of the bytes holds "/K", optional whitespace, "(", characters none of which is a line
terminator, ")"; the value is the text between that "(" and the first following ")" of the
leftmost such occurrence; keys with no such occurrence are left as they were, no other key is
touched, and bytes beyond the first 10 KB never influence the result. -/
theorem extractPDFMetadata_entry_rule (host : Host) (file : File) (m : Metadata) (K : String)
    (hK : K ∈ pdfKeys) :
    ((∃ pre ws body post, LineEntryAt K (pdfText host file).toList pre ws body post) →
      ∃ pre ws body post, LineEntryAt K (pdfText host file).toList pre ws body post ∧
        (∀ pre' ws' body' post', LineEntryAt K (pdfText host file).toList pre' ws' body' post' →
          pre.length ≤ pre'.length) ∧
        (extractPDFMetadata host file m).get ("PDF:" ++ K) = some (entryValue body)) ∧
    (∀ pre ws body post, LineEntryAt K (pdfText host file).toList pre ws body post →
      (∀ pre' ws' body' post', LineEntryAt K (pdfText host file).toList pre' ws' body' post' →
        pre.length ≤ pre'.length) →
      (extractPDFMetadata host file m).get ("PDF:" ++ K) = some (entryValue body)) ∧
    ((¬ ∃ pre ws body post, LineEntryAt K (pdfText host file).toList pre ws body post) →
      (extractPDFMetadata host file m).get ("PDF:" ++ K) = m.get ("PDF:" ++ K)) ∧
    (∀ k, (∀ K' ∈ pdfKeys, k ≠ "PDF:" ++ K') →
      (extractPDFMetadata host file m).get k = m.get k) ∧
    (∀ file' : File, file'.bytes.take 10000 = file.bytes.take 10000 →
      extractPDFMetadata host file' m = extractPDFMetadata host file m) := by
  have hget := extractPDFMetadata_get host file m K hK
  generalize (pdfText host file).toList = text at hget ⊢
  refine ⟨?_, ?_, ?_, ?_, ?_⟩
  · rintro ⟨pre0, ws0, body0, post0, h0⟩
    obtain ⟨suf0, htext0, hm0⟩ := matchHere_of_lineEntry K text pre0 ws0 body0 post0 h0
    cases hc : regexCapture K text with
    | none =>
      rw [htext0] at hc
      rw [regexCapture_none K pre0 suf0 hc] at hm0
      cases hm0
    | some v =>
      obtain ⟨pre, suf, hs, hsuf, hleft⟩ := regexCapture_some K text v hc
      obtain ⟨ws, post, hentry, htw⟩ := lineEntry_of_matchHere K pre suf v hsuf
      rw [← hs] at hentry
      refine ⟨pre, ws, v, post, hentry, ?_, ?_⟩
      · intro pre' ws' body' post' h'
        obtain ⟨suf', htext', hm'⟩ := matchHere_of_lineEntry K text pre' ws' body' post' h'
        by_contra hlt
        rw [hleft pre' suf' htext' (Nat.lt_of_not_le hlt)] at hm'
        cases hm'
      · rw [hget, hc]
        simp only [entryValue, htw]
  · intro pre ws body post h hleft
    obtain ⟨suf, htext, hm⟩ := matchHere_of_lineEntry K text pre ws body post h
    have hcap : regexCapture K (pre ++ suf) = some (body.takeWhile (fun c => c != ')')) := by
      apply regexCapture_of_leftmost K pre suf _ hm
      intro pre' suf' heq hlt
      cases hm' : matchHere K suf' with
      | none => rfl
      | some v' =>
        obtain ⟨ws', post', hentry', _⟩ := lineEntry_of_matchHere K pre' suf' v' hm'
        rw [← heq, ← htext] at hentry'
        exact absurd (hleft pre' ws' v' post' hentry') (Nat.not_le_of_lt hlt)
    rw [hget, htext, hcap]
    rfl
  · intro hno
    cases hc : regexCapture K text with
    | none => rw [hget, hc]
    | some v =>
      exfalso
      obtain ⟨pre, suf, hs, hsuf, _⟩ := regexCapture_some K text v hc
      obtain ⟨ws, post, hentry, _⟩ := lineEntry_of_matchHere K pre suf v hsuf
      rw [← hs] at hentry
      exact hno ⟨pre, ws, v, post, hentry⟩
  · intro k hk
    exact applyPatterns_get_other _ pdfKeys m k (fun K' hK' => Ne.symm (hk K' hK'))
  · intro file' hbytes
    simp only [extractPDFMetadata, pdfText, hbytes]

/-- Witness for C2: the report PDF holds a `/Title (Report)` entry after its header. -/
theorem extractPDFMetadata_entry_rule_witness :
    "Title" ∈ pdfKeys ∧
    ∃ pre ws body post, LineEntryAt "Title" (pdfText sampleHost reportPdf).toList pre ws body post ∧
      (∀ pre' ws' body' post',
        LineEntryAt "Title" (pdfText sampleHost reportPdf).toList pre' ws' body' post' →
          pre.length ≤ pre'.length) ∧
      (extractPDFMetadata sampleHost reportPdf []).get ("PDF:" ++ "Title")
        = some (entryValue body) :=
  ⟨by decide,
    (extractPDFMetadata_entry_rule sampleHost reportPdf [] "Title" (by decide)).1
      ⟨"%PDF-1.4 1 0 obj << ".toList, [' '], "Report".toList, " /Author (Jane) >> endobj".toList,
        ⟨by decide, by decide⟩, by decide⟩⟩


/-! ## C6: image sanitization and the selection -/

/-- C6: `stripMetadata` gives the same output for any two selections. For an image that loads in
time and re-encodes to a blob, the output is the new file made of the blob, the original filename
and the original media type, stamped with the time of cleaning; hence any two image files with the
same name, the same type and the same decoded pixels give the same output, whatever their other
bytes, their timestamps and the selections. -/
theorem stripMetadata_ignores_selection (host : Host) (draw : Draw) (file : File)
    (s1 s2 : List String) :
    stripMetadata host draw file s1 = stripMetadata host draw file s2 ∧
    (∀ px blob, startsWith file.type "image/" = true →
      host.loadImage file = ImageLoad.loaded px false → host.toBlob px file.type = some blob →
      stripMetadata host draw file s1 = ⟨file.name, file.type, some draw.cleanTime, blob⟩ ∧
      ∀ file' : File, file'.name = file.name → file'.type = file.type →
        host.loadImage file' = ImageLoad.loaded px false →
        stripMetadata host draw file' s2 = stripMetadata host draw file s1) := by
  refine ⟨rfl, ?_⟩
  intro px blob himg hload hblob
  have h1 : stripMetadata host draw file s1 = ⟨file.name, file.type, some draw.cleanTime, blob⟩ := by
    simp [stripMetadata, stripImageMetadata, himg, hload, hblob]
  refine ⟨h1, ?_⟩
  intro file' hname htype hload'
  rw [h1]
  simp [stripMetadata, stripImageMetadata, htype, himg, hload', hblob, hname]

/-- Witness for C6: the sample image, cleaned under two selections and compared with a file of
the same name, type and pixels but another first byte and timestamp. -/
theorem stripMetadata_ignores_selection_witness :
    (startsWith goodPng.type "image/" = true ∧
      sampleHost.loadImage goodPng = ImageLoad.loaded ⟨3, 1, [10, 20, 30]⟩ false ∧
      sampleHost.toBlob ⟨3, 1, [10, 20, 30]⟩ goodPng.type = some [255, 10, 20, 30]) ∧
    stripMetadata sampleHost drawA goodPng ["EXIF:Make"]
      = ⟨"beach.png", "image/png", some drawA.cleanTime, [255, 10, 20, 30]⟩ ∧
    stripMetadata sampleHost drawA ⟨"beach.png", "image/png", none, [7, 10, 20, 30]⟩ []
      = stripMetadata sampleHost drawA goodPng ["EXIF:Make"] :=
  have hload : sampleHost.loadImage goodPng = ImageLoad.loaded ⟨3, 1, [10, 20, 30]⟩ false := by
    decide
  have hblob : sampleHost.toBlob ⟨3, 1, [10, 20, 30]⟩ goodPng.type = some [255, 10, 20, 30] := by
    decide
  have himg : startsWith goodPng.type "image/" = true := by decide
  have h := (stripMetadata_ignores_selection sampleHost drawA goodPng ["EXIF:Make"] []).2
    ⟨3, 1, [10, 20, 30]⟩ [255, 10, 20, 30] himg hload hblob
  ⟨⟨himg, hload, hblob⟩, h.1,
    h.2 ⟨"beach.png", "image/png", none, [7, 10, 20, 30]⟩ rfl rfl (by decide)⟩

/-! ## C7 and C10: `removeMetadata` -/

theorem getSelectedMetadata_setStatus (s : App) (fileId other : String) (st : Status) :
    getSelectedMetadata (setStatus s fileId st) other = getSelectedMetadata s other := by
  have h : ∀ cards : List (String × Card),
      ((cardModifyAt cards fileId Part.status (fun c => { c with status := st })).filter
          (fun p => p.1 = other)).map
        (fun p => (p.2.boxes.filter (fun b => b.checked)).map (fun b => b.key))
      = (cards.filter (fun p => p.1 = other)).map
        (fun p => (p.2.boxes.filter (fun b => b.checked)).map (fun b => b.key)) := by
    intro cards
    induction cards with
    | nil => rfl
    | cons e rest ih =>
      obtain ⟨k, c⟩ := e
      simp only [cardModifyAt]
      split
      · simp only [List.filter_cons]
        split <;> simp
      · simp only [List.filter_cons]
        split
        · simp only [List.map_cons, ih]
        · exact ih
  simp only [getSelectedMetadata, setStatus]
  rw [h]

theorem stripMetadata_degraded (host : Host) (draw : Draw) (file : File) (sel : List String)
    (hdeg : startsWith file.type "image/" = false ∨
      host.loadImage file = ImageLoad.readError ∨
      host.loadImage file = ImageLoad.decodeError ∨
      (∃ px, host.loadImage file = ImageLoad.loaded px true) ∨
      (∃ px, host.loadImage file = ImageLoad.loaded px false ∧
        host.toBlob px file.type = none)) :
    stripMetadata host draw file sel = file := by
  by_cases himg : startsWith file.type "image/" = true
  · rcases hdeg with h | h | h | ⟨px, h⟩ | ⟨px, h, hb⟩
    · rw [h] at himg
      cases himg
    · simp [stripMetadata, stripImageMetadata, himg, h]
    · simp [stripMetadata, stripImageMetadata, himg, h]
    · simp [stripMetadata, stripImageMetadata, himg, h]
    · simp [stripMetadata, stripImageMetadata, himg, h, hb]
  · simp [stripMetadata, himg]

/-- The four ways `removeMetadata` ends on a record that is not cleaned, by the elements the
card of the record holds. -/
theorem removeMetadata_of_uncleaned (host : Host) (draw : Draw) (s : App) (fileId : String)
    (fd : FileData) (hfd : filesGet s.files fileId = some fd) (hnot : fd.cleaned = false) :
    removeMetadata host draw s fileId =
      if (cardFind s.cards fileId Part.status).isSome = true then
        if (cardFind s.cards fileId Part.progressFill).isSome = true then
          if (cardFind s.cards fileId Part.actions).isSome = true then
            ⟨downloadFile (setStatus (storeRecord (setStatus s fileId Status.cleaning) fileId
              ⟨fd.file, fd.metadata, true,
                some (stripMetadata host draw fd.file (getSelectedMetadata s fileId)),
                some (getSelectedMetadata s fileId)⟩) fileId
              (Status.cleaned (getSelectedMetadata s fileId).length)) fileId, Settled.resolved⟩
          else
            ⟨setStatus (storeRecord (setStatus s fileId Status.cleaning) fileId
              ⟨fd.file, fd.metadata, true,
                some (stripMetadata host draw fd.file (getSelectedMetadata s fileId)),
                some (getSelectedMetadata s fileId)⟩) fileId
              (Status.cleaned (getSelectedMetadata s fileId).length), Settled.rejected⟩
        else ⟨setStatus s fileId Status.cleaning, Settled.rejected⟩
      else ⟨s, Settled.rejected⟩ := by
  have hp := cardFind_setStatus s fileId fileId Status.cleaning Part.progressFill
  have ha := cardFind_setStatus (storeRecord (setStatus s fileId Status.cleaning) fileId
      ⟨fd.file, fd.metadata, true,
        some (stripMetadata host draw fd.file (getSelectedMetadata s fileId)),
        some (getSelectedMetadata s fileId)⟩) fileId fileId
      (Status.cleaned (getSelectedMetadata s fileId).length) Part.actions
  have hcards : (storeRecord (setStatus s fileId Status.cleaning) fileId
      ⟨fd.file, fd.metadata, true,
        some (stripMetadata host draw fd.file (getSelectedMetadata s fileId)),
        some (getSelectedMetadata s fileId)⟩).cards = (setStatus s fileId Status.cleaning).cards :=
    rfl
  rw [hcards, cardFind_setStatus s fileId fileId Status.cleaning Part.actions] at ha
  unfold removeMetadata
  rw [hfd]
  simp only [hnot, Bool.false_eq_true, if_false]
  cases hst : cardFind s.cards fileId Part.status with
  | none => simp
  | some c =>
    simp only [Option.isSome_some, if_true]
    cases hpr : cardFind (setStatus s fileId Status.cleaning).cards fileId Part.progressFill with
    | none =>
      rw [hpr] at hp
      simp [← hp]
    | some c2 =>
      rw [hpr] at hp
      simp only [← hp, Option.isSome_some, if_true]
      unfold finishClean
      simp only [getSelectedMetadata_setStatus]
      cases hac : cardFind (setStatus (storeRecord (setStatus s fileId Status.cleaning) fileId
          ⟨fd.file, fd.metadata, true,
            some (stripMetadata host draw fd.file (getSelectedMetadata s fileId)),
            some (getSelectedMetadata s fileId)⟩) fileId
          (Status.cleaned (getSelectedMetadata s fileId).length)).cards fileId Part.actions with
      | none =>
        rw [hac] at ha
        simp [← ha]
      | some c3 =>
        rw [hac] at ha
        simp [← ha]

theorem downloadFile_files (s : App) (fileId : String) : (downloadFile s fileId).files = s.files := by
  unfold downloadFile
  split
  · rfl
  · split <;> rfl

theorem downloadFile_cards (s : App) (fileId : String) : (downloadFile s fileId).cards = s.cards := by
  unfold downloadFile
  split
  · rfl
  · split <;> rfl

/-- C7 (the code departs from it): the text file `a<!--.txt` was ingested, so the batch holds a
record that is not cleaned and whose file is not an image. Its name went unescaped into the card
template and the card has no status line: `removeMetadata` throws at its first statement on the
page, the record is not marked cleaned and gets no sanitized output, and "clean all", the only way
to ask for the clean from such a card, is rejected in the same way. -/
theorem removeMetadata_throws_without_status_line :
    filesGet markupBatch.files "file_1700000000000_k3x9q2m1z"
      = some ⟨markupTxt, none, false, none, none⟩ ∧
    startsWith markupTxt.type "image/" = false ∧
    sampleHost.parseCard markupTxt.name = ⟨false, false, false, false⟩ ∧
    handleFiles sampleHost App.empty [(markupTxt, drawA)] = ⟨markupBatch, Settled.rejected⟩ ∧
    removeMetadata sampleHost drawB markupBatch "file_1700000000000_k3x9q2m1z"
      = ⟨markupBatch, Settled.rejected⟩ ∧
    removeAllMetadata sampleHost sampleDraws markupBatch = ⟨markupBatch, Settled.rejected⟩ := by
  refine ⟨?_, ?_, ?_, ?_, ?_, ?_⟩ <;> decide

/-- Where the card of the record holds its status line and its progress bar, the clean degrades
as the specification says: for a record that is not yet cleaned, whose file is not an image, or is an image whose
read fails, whose decode fails, whose decode times out or whose re-encoding yields no blob,
`removeMetadata` leaves the record marked cleaned, its sanitized output being the original file
unchanged and its removed-keys list the selection read when the clean was requested; the status
line reports the size of that selection, and the promise resolves exactly when the card also holds
its block of buttons. -/
theorem removeMetadata_degrades_to_copy (host : Host) (draw : Draw) (s : App) (fileId : String)
    (fd : FileData) (hfd : filesGet s.files fileId = some fd) (hnot : fd.cleaned = false)
    (hstatus : (cardFind s.cards fileId Part.status).isSome = true)
    (hprogress : (cardFind s.cards fileId Part.progressFill).isSome = true)
    (hdeg : startsWith fd.file.type "image/" = false ∨
      host.loadImage fd.file = ImageLoad.readError ∨
      host.loadImage fd.file = ImageLoad.decodeError ∨
      (∃ px, host.loadImage fd.file = ImageLoad.loaded px true) ∨
      (∃ px, host.loadImage fd.file = ImageLoad.loaded px false ∧
        host.toBlob px fd.file.type = none)) :
    filesGet (removeMetadata host draw s fileId).app.files fileId
      = some ⟨fd.file, fd.metadata, true, some fd.file, some (getSelectedMetadata s fileId)⟩ ∧
    statusOf (removeMetadata host draw s fileId).app fileId
      = some (Status.cleaned (getSelectedMetadata s fileId).length) ∧
    ((removeMetadata host draw s fileId).fate = Settled.resolved ↔
      (cardFind s.cards fileId Part.actions).isSome = true) := by
  have hst : (cardFind (storeRecord (setStatus s fileId Status.cleaning) fileId
      ⟨fd.file, fd.metadata, true, some fd.file, some (getSelectedMetadata s fileId)⟩).cards
      fileId Part.status).isSome = true := by
    have hcards : (storeRecord (setStatus s fileId Status.cleaning) fileId
        ⟨fd.file, fd.metadata, true, some fd.file, some (getSelectedMetadata s fileId)⟩).cards
        = (setStatus s fileId Status.cleaning).cards := rfl
    rw [hcards, cardFind_setStatus]
    exact hstatus
  rw [removeMetadata_of_uncleaned host draw s fileId fd hfd hnot,
    stripMetadata_degraded host draw fd.file _ hdeg]
  rw [if_pos hstatus, if_pos hprogress]
  by_cases hact : (cardFind s.cards fileId Part.actions).isSome = true
  · rw [if_pos hact]
    refine ⟨?_, ?_, ?_⟩
    · simp [downloadFile_files, setStatus, storeRecord, filesGet_filesSet_self]
    · simp only [statusOf, downloadFile_cards]
      exact statusOf_setStatus _ fileId _ hst
    · simp [hact]
  · rw [if_neg hact]
    refine ⟨?_, ?_, ?_⟩
    · simp [setStatus, storeRecord, filesGet_filesSet_self]
    · exact statusOf_setStatus _ fileId _ hst
    · simp [hact]

/-- An instance of the preceding theorem: the analysed text file of `readyBatch`, a non-image
record, is cleaned into a copy of itself and all four of its checked keys are recorded as
removed. -/
theorem removeMetadata_degrades_to_copy_witness :
    (filesGet readyBatch.files "file_1700000000000_k3x9q2m1z"
        = some ⟨notesTxt, some [("File:LastModified", "2020-09-13T12:26:40.000Z"),
            ("File:Name", "notes.txt"), ("File:Size", "5 bytes"), ("File:Type", "text/plain")],
          false, none, none⟩ ∧
      (cardFind readyBatch.cards "file_1700000000000_k3x9q2m1z" Part.status).isSome = true ∧
      (cardFind readyBatch.cards "file_1700000000000_k3x9q2m1z" Part.progressFill).isSome
        = true ∧
      startsWith notesTxt.type "image/" = false) ∧
    getSelectedMetadata readyBatch "file_1700000000000_k3x9q2m1z"
      = ["File:LastModified", "File:Name", "File:Size", "File:Type"] ∧
    filesGet (removeMetadata sampleHost drawA readyBatch "file_1700000000000_k3x9q2m1z").app.files
        "file_1700000000000_k3x9q2m1z"
      = some ⟨notesTxt, some [("File:LastModified", "2020-09-13T12:26:40.000Z"),
            ("File:Name", "notes.txt"), ("File:Size", "5 bytes"), ("File:Type", "text/plain")],
          true, some notesTxt,
          some (getSelectedMetadata readyBatch "file_1700000000000_k3x9q2m1z")⟩ :=
  have hfd : filesGet readyBatch.files "file_1700000000000_k3x9q2m1z"
      = some ⟨notesTxt, some [("File:LastModified", "2020-09-13T12:26:40.000Z"),
          ("File:Name", "notes.txt"), ("File:Size", "5 bytes"), ("File:Type", "text/plain")],
        false, none, none⟩ := by decide
  have hstatus : (cardFind readyBatch.cards "file_1700000000000_k3x9q2m1z"
      Part.status).isSome = true := by decide
  have hprogress : (cardFind readyBatch.cards "file_1700000000000_k3x9q2m1z"
      Part.progressFill).isSome = true := by decide
  have himg : startsWith notesTxt.type "image/" = false := by decide
  ⟨⟨hfd, hstatus, hprogress, himg⟩, by decide,
    (removeMetadata_degrades_to_copy sampleHost drawA readyBatch "file_1700000000000_k3x9q2m1z"
      _ hfd rfl hstatus hprogress (Or.inl himg)).1⟩

/-- C10: `removeMetadata` on an identifier that is not in the batch, or whose record is already
cleaned, resolves at once and leaves the whole state as it was; so a second clean of the same file,
run after the first, changes nothing: the state (batch included) is the one the first clean left,
and where the first clean resolved the second does too. -/
theorem removeMetadata_cleaned_noop (host : Host) (d1 d2 : Draw) (s : App) (fileId : String) :
    ((filesGet s.files fileId = none ∨
        ∃ fd, filesGet s.files fileId = some fd ∧ fd.cleaned = true) →
      removeMetadata host d1 s fileId = ⟨s, Settled.resolved⟩) ∧
    (removeMetadata host d2 (removeMetadata host d1 s fileId).app fileId).app
      = (removeMetadata host d1 s fileId).app ∧
    ((removeMetadata host d1 s fileId).fate = Settled.resolved →
      removeMetadata host d2 (removeMetadata host d1 s fileId).app fileId
        = removeMetadata host d1 s fileId) := by
  have hnoop : ∀ (d : Draw) (t : App), (filesGet t.files fileId = none ∨
      ∃ fd, filesGet t.files fileId = some fd ∧ fd.cleaned = true) →
      removeMetadata host d t fileId = ⟨t, Settled.resolved⟩ := by
    intro d t h
    rcases h with h | ⟨fd, h, hcl⟩
    · simp [removeMetadata, h]
    · simp [removeMetadata, h, hcl]
  refine ⟨hnoop d1 s, ?_⟩
  cases hfd : filesGet s.files fileId with
  | none =>
    rw [hnoop d1 s (Or.inl hfd)]
    exact ⟨by rw [hnoop d2 s (Or.inl hfd)], fun _ => hnoop d2 s (Or.inl hfd)⟩
  | some fd =>
    cases hcl : fd.cleaned with
    | true =>
      rw [hnoop d1 s (Or.inr ⟨fd, hfd, hcl⟩)]
      exact ⟨by rw [hnoop d2 s (Or.inr ⟨fd, hfd, hcl⟩)],
        fun _ => hnoop d2 s (Or.inr ⟨fd, hfd, hcl⟩)⟩
    | false =>
      rw [removeMetadata_of_uncleaned host d1 s fileId fd hfd hcl]
      by_cases hst : (cardFind s.cards fileId Part.status).isSome = true
      · by_cases hpr : (cardFind s.cards fileId Part.progressFill).isSome = true
        · have hcleaned : ∀ t : App, t.files = filesSet s.files fileId
              ⟨fd.file, fd.metadata, true,
                some (stripMetadata host d1 fd.file (getSelectedMetadata s fileId)),
                some (getSelectedMetadata s fileId)⟩ →
              removeMetadata host d2 t fileId = ⟨t, Settled.resolved⟩ := by
            intro t ht
            apply hnoop d2
            right
            exact ⟨_, by rw [ht, filesGet_filesSet_self], rfl⟩
          by_cases hac : (cardFind s.cards fileId Part.actions).isSome = true
          · rw [if_pos hst, if_pos hpr, if_pos hac]
            have h2 := hcleaned (downloadFile (setStatus (storeRecord
              (setStatus s fileId Status.cleaning) fileId
              ⟨fd.file, fd.metadata, true,
                some (stripMetadata host d1 fd.file (getSelectedMetadata s fileId)),
                some (getSelectedMetadata s fileId)⟩) fileId
              (Status.cleaned (getSelectedMetadata s fileId).length)) fileId)
              (by rw [downloadFile_files]; rfl)
            exact ⟨by rw [h2], fun _ => h2⟩
          · rw [if_pos hst, if_pos hpr, if_neg hac]
            have h2 := hcleaned (setStatus (storeRecord
              (setStatus s fileId Status.cleaning) fileId
              ⟨fd.file, fd.metadata, true,
                some (stripMetadata host d1 fd.file (getSelectedMetadata s fileId)),
                some (getSelectedMetadata s fileId)⟩) fileId
              (Status.cleaned (getSelectedMetadata s fileId).length)) rfl
            refine ⟨by rw [h2], fun h => ?_⟩
            cases h
        · rw [if_pos hst, if_neg hpr]
          have hfd2 : filesGet (setStatus s fileId Status.cleaning).files fileId = some fd := hfd
          have hst2 : (cardFind (setStatus s fileId Status.cleaning).cards fileId
              Part.status).isSome = true := by
            rw [cardFind_setStatus]
            exact hst
          have hpr2 : ¬ (cardFind (setStatus s fileId Status.cleaning).cards fileId
              Part.progressFill).isSome = true := by
            rw [cardFind_setStatus]
            exact hpr
          rw [removeMetadata_of_uncleaned host d2 (setStatus s fileId Status.cleaning) fileId fd
            hfd2 hcl]
          rw [if_pos hst2, if_neg hpr2, setStatus_twice]
          refine ⟨rfl, fun h => ?_⟩
          cases h
      · rw [if_neg hst]
        rw [removeMetadata_of_uncleaned host d2 s fileId fd hfd hcl, if_neg hst]
        refine ⟨rfl, fun h => ?_⟩
        cases h

/-- Witness for C10: the text file of `cleanedOnce` is already cleaned; a further clean leaves
`cleanedOnce` as it is. -/
theorem removeMetadata_cleaned_noop_witness :
    (∃ fd, filesGet cleanedOnce.files "file_1700000000000_k3x9q2m1z" = some fd ∧
      fd.cleaned = true) ∧
    removeMetadata sampleHost drawB cleanedOnce "file_1700000000000_k3x9q2m1z"
      = ⟨cleanedOnce, Settled.resolved⟩ :=
  have h : ∃ fd, filesGet cleanedOnce.files "file_1700000000000_k3x9q2m1z" = some fd ∧
      fd.cleaned = true :=
    ⟨⟨notesTxt, some [("File:LastModified", "2020-09-13T12:26:40.000Z"),
        ("File:Name", "notes.txt"), ("File:Size", "5 bytes"), ("File:Type", "text/plain")],
      true, some notesTxt, some ["File:LastModified", "File:Name", "File:Size", "File:Type"]⟩,
      by decide, rfl⟩
  ⟨h, (removeMetadata_cleaned_noop sampleHost drawB drawB cleanedOnce
    "file_1700000000000_k3x9q2m1z").1 (Or.inr h)⟩

/-! ## C8 and C9: export -/

theorem cleanedFiles_of_none_cleaned (s : App) (h : ∀ p ∈ s.files, p.2.cleaned = false) :
    cleanedFiles s = [] := by
  simp only [cleanedFiles, List.filter_eq_nil_iff, List.mem_map]
  rintro fd ⟨p, hp, rfl⟩
  simp [h p hp]

theorem cleanedFiles_of_one_cleaned (s : App) (fileId : String) (fd : FileData)
    (h : s.files.filter (fun p => p.2.cleaned) = [(fileId, fd)])
    (hcf : fd.cleanedFile.isSome = true) : cleanedFiles s = [fd] := by
  have h1 : (s.files.map (fun p => p.2)).filter (fun fd => fd.cleaned)
      = (s.files.filter (fun p => p.2.cleaned)).map (fun p => p.2) := by
    rw [List.filter_map]
    rfl
  have h2 : cleanedFiles s
      = ((s.files.map (fun p => p.2)).filter (fun fd => fd.cleaned)).filter
          (fun fd => fd.cleanedFile.isSome) := by
    simp only [cleanedFiles, List.filter_filter]
    congr 1
    funext fd
    exact Bool.and_comm _ _
  rw [h2, h1, h]
  simp [hcf]

/-- C9: when no record of the batch is cleaned, `downloadAllAsZip` shows the alert
"No cleaned files to download!" and starts no download; when exactly one record is cleaned it
starts exactly one download, not an archive but that record's stored sanitized file, under the
name "cleaned_" followed by the original filename. -/
theorem downloadAllAsZip_none_or_single (draw : Draw) (s : App) :
    ((∀ p ∈ s.files, p.2.cleaned = false) →
      (downloadAllAsZip draw s).app.alerts = s.alerts ++ ["No cleaned files to download!"] ∧
      (downloadAllAsZip draw s).app.downloads = s.downloads ∧
      (downloadAllAsZip draw s).app.files = s.files) ∧
    (∀ fileId fd cf, s.files.filter (fun p => p.2.cleaned) = [(fileId, fd)] →
      fd.cleanedFile = some cf →
      (downloadAllAsZip draw s).app.downloads
        = s.downloads ++ [Download.single ("cleaned_" ++ fd.file.name) cf] ∧
      (downloadAllAsZip draw s).app.alerts = s.alerts ∧
      (downloadAllAsZip draw s).app.files = s.files) := by
  constructor
  · intro h
    simp [downloadAllAsZip, cleanedFiles_of_none_cleaned s h, showAlert]
  · intro fileId fd cf h hcf
    simp [downloadAllAsZip, cleanedFiles_of_one_cleaned s fileId fd h (by simp [hcf]), hcf,
      downloadSingleFile]

/-- Witness for C9: `readyBatch` holds no cleaned record, `cleanedOnce` holds exactly one. -/
theorem downloadAllAsZip_none_or_single_witness :
    ((∀ p ∈ readyBatch.files, p.2.cleaned = false) ∧
      (downloadAllAsZip drawB readyBatch).app.downloads = readyBatch.downloads) ∧
    ((cleanedOnce.files.filter (fun p => p.2.cleaned)).map (fun p => p.1)
        = ["file_1700000000000_k3x9q2m1z"] ∧
      (downloadAllAsZip drawB cleanedOnce).app.downloads
        = cleanedOnce.downloads ++ [Download.single "cleaned_notes.txt" notesTxt]) :=
  have h0 : ∀ p ∈ readyBatch.files, p.2.cleaned = false := by decide
  have h1 : cleanedOnce.files.filter (fun p => p.2.cleaned)
      = [("file_1700000000000_k3x9q2m1z",
          ⟨notesTxt, some [("File:LastModified", "2020-09-13T12:26:40.000Z"),
            ("File:Name", "notes.txt"), ("File:Size", "5 bytes"), ("File:Type", "text/plain")],
          true, some notesTxt,
          some ["File:LastModified", "File:Name", "File:Size", "File:Type"]⟩)] := by decide
  ⟨⟨h0, ((downloadAllAsZip_none_or_single drawB readyBatch).1 h0).2.1⟩,
    ⟨by rw [h1]; rfl,
      ((downloadAllAsZip_none_or_single drawB cleanedOnce).2 _ _ notesTxt h1 rfl).1⟩⟩

/-- C8 (the code departs from it): two files of the same name were ingested and cleaned, so the
batch holds N = 2 cleaned files; the archive `downloadAllAsZip` produces has one entry only,
holding the second file: `zip.file` replaced the entry of the first file, whose sanitized bytes
are not in the archive. -/
theorem downloadAllAsZip_merges_equal_names :
    (cleanedFiles twinBatch).map (fun fd => fd.cleanedFile) = [some notesTxt, some otherNotesTxt] ∧
    (downloadAllAsZip drawB twinBatch).app.downloads
      = twinBatch.downloads ++
        [Download.archive "cleaned_files_1700000000503.zip"
          [("cleaned_notes.txt", otherNotesTxt)]] := by
  constructor <;> decide


/-! ## Export of files with pairwise different names -/

theorem cleaned_name_inj (a b : String) (h : "cleaned_" ++ a = "cleaned_" ++ b) : a = b := by
  have h2 := congrArg String.data h
  simp at h2
  exact String.ext h2

theorem zipFile_new_name (zip : List (String × File)) (name : String) (data : File)
    (h : ∀ e ∈ zip, e.1 ≠ name) : zipFile zip name data = zip ++ [(name, data)] := by
  induction zip with
  | nil => rfl
  | cons e rest ih =>
    obtain ⟨k, v⟩ := e
    have hk : k ≠ name := h (k, v) (List.mem_cons_self _ _)
    simp [zipFile, hk, ih (fun e he => h e (List.mem_cons_of_mem _ he))]

/-- The archive entry of a cleaned record. -/
theorem zipAll_distinct_names (zip : List (String × File)) (list : List FileData)
    (hnd : (list.map (fun fd => fd.file.name)).Nodup)
    (hzip : ∀ e ∈ zip, ∀ fd ∈ list, e.1 ≠ "cleaned_" ++ fd.file.name) :
    zipAll zip list = zip ++ list.filterMap
      (fun fd => fd.cleanedFile.map (fun cf => ("cleaned_" ++ fd.file.name, cf))) := by
  induction list generalizing zip with
  | nil => simp [zipAll]
  | cons fd rest ih =>
    have hnd2 : fd.file.name ∉ rest.map (fun fd => fd.file.name) ∧
        (rest.map (fun fd => fd.file.name)).Nodup := List.nodup_cons.mp hnd
    have hrest : (rest.map (fun fd => fd.file.name)).Nodup := hnd2.2
    cases hcf : fd.cleanedFile with
    | none =>
      simp only [zipAll, hcf]
      rw [ih zip hrest (fun e he fd' hfd' => hzip e he fd' (List.mem_cons_of_mem _ hfd'))]
      simp [hcf]
    | some cf =>
      simp only [zipAll, hcf]
      rw [zipFile_new_name zip _ cf (fun e he => hzip e he fd (List.mem_cons_self _ _))]
      rw [ih _ hrest]
      · simp [hcf]
      · intro e he fd' hfd'
        rcases List.mem_append.mp he with he | he
        · exact hzip e he fd' (List.mem_cons_of_mem _ hfd')
        · simp only [List.mem_singleton] at he
          subst he
          intro heq
          have hname : fd.file.name = fd'.file.name := cleaned_name_inj _ _ heq
          exact hnd2.1 (List.mem_map.mpr ⟨fd', hfd', hname.symm⟩)

/-- Where the cleaned files have pairwise different names, the archive of `downloadAllAsZip`
holds one entry per cleaned file, in batch order, named "cleaned_" followed by the original
filename and holding the sanitized file. -/
theorem downloadAllAsZip_distinct_names (draw : Draw) (s : App)
    (hN : 2 ≤ (cleanedFiles s).length)
    (hnd : ((cleanedFiles s).map (fun fd => fd.file.name)).Nodup) :
    (downloadAllAsZip draw s).app.downloads = s.downloads ++
      [Download.archive ("cleaned_files_" ++ toString draw.zipTime ++ ".zip")
        ((cleanedFiles s).filterMap
          (fun fd => fd.cleanedFile.map (fun cf => ("cleaned_" ++ fd.file.name, cf))))] ∧
    ((cleanedFiles s).filterMap
      (fun fd => fd.cleanedFile.map (fun cf => ("cleaned_" ++ fd.file.name, cf)))).length
      = (cleanedFiles s).length := by
  constructor
  · have hz := zipAll_distinct_names [] (cleanedFiles s) hnd (by simp)
    unfold downloadAllAsZip
    generalize cleanedFiles s = list at hN hz ⊢
    match list, hN with
    | a :: b :: rest, _ => simp [hz]
  · have hall : ∀ fd ∈ cleanedFiles s, fd.cleanedFile.isSome = true := by
      intro fd hfd
      simp only [cleanedFiles, List.mem_filter, Bool.and_eq_true] at hfd
      exact hfd.2.2
    generalize cleanedFiles s = list at hall ⊢
    induction list with
    | nil => rfl
    | cons fd rest ih =>
      obtain ⟨cf, hcf⟩ := Option.isSome_iff_exists.mp (hall fd (List.mem_cons_self _ _))
      simp [List.filterMap_cons, hcf, ih (fun fd' h' => hall fd' (List.mem_cons_of_mem _ h'))]


/-! ## The ingestion gate when every analysis completes -/

theorem filesGet_filesSet_isSome (files : List (String × FileData)) (fileId other : String)
    (fd : FileData) (h : (filesGet files other).isSome = true) :
    (filesGet (filesSet files fileId fd) other).isSome = true := by
  by_cases hk : fileId = other
  · subst hk
    simp [filesGet_filesSet_self]
  · rw [filesGet_filesSet_other files fileId other fd hk]
    exact h

theorem cardFind_append_self (cards : List (String × Card)) (fileId : String) (c : Card)
    (part : Part) (hc : c.elements.has part = true) :
    (cardFind (cards ++ [(fileId, c)]) fileId part).isSome = true := by
  induction cards with
  | nil => simp [cardFind, hc]
  | cons e rest ih =>
    obtain ⟨k, v⟩ := e
    simp only [List.cons_append, cardFind]
    split
    · rfl
    · exact ih

theorem renderFileCard_files (host : Host) (s : App) (fileId : String) :
    (renderFileCard host s fileId).files = s.files := by
  unfold renderFileCard
  split <;> rfl

theorem renderFileCard_alerts (host : Host) (s : App) (fileId : String) :
    (renderFileCard host s fileId).alerts = s.alerts := by
  unfold renderFileCard
  split <;> rfl

/-- The card that `renderFileCard` adds for a stored record holds every element that the parser
makes of the template with the record's file name. -/
theorem cardFind_renderFileCard (host : Host) (s : App) (fileId : String) (fd : FileData)
    (part : Part) (hfd : filesGet s.files fileId = some fd)
    (hpart : (host.parseCard fd.file.name).has part = true) :
    (cardFind (renderFileCard host s fileId).cards fileId part).isSome = true := by
  unfold renderFileCard
  rw [hfd]
  exact cardFind_append_self s.cards fileId _ part hpart

theorem collectMetadata_resolved (host : Host) (draw : Draw) (file : File)
    (himg : startsWith file.type "image/" = true →
      ∃ px late, host.loadImage file = ImageLoad.loaded px late)
    (hvalid : ∀ t, file.lastModified = some t → -maxTimeValue ≤ t ∧ t ≤ maxTimeValue) :
    (collectMetadata host draw file).1 = Settled.resolved := by
  have hstage : ∃ m1, (if startsWith file.type "image/" then extractImageMetadata host file []
      else some []) = some m1 := by
    by_cases h : startsWith file.type "image/" = true
    · obtain ⟨px, late, hl⟩ := himg h
      exact ⟨addExifTags (host.exifTags file) [], by simp [h, extractImageMetadata, hl]⟩
    · exact ⟨[], by simp [h]⟩
  obtain ⟨m1, hm1⟩ := hstage
  have hattr : ∀ m, ∃ m3, extractExtendedAttributes draw file m = some m3 := by
    intro m
    cases hlm : file.lastModified with
    | none =>
      exact ⟨addFileAttributes draw file m,
        by simp [extractExtendedAttributes, addLastModified, hlm, truthyStamp]⟩
    | some t =>
      by_cases h0 : t = 0
      · exact ⟨addFileAttributes draw file m,
          by simp [extractExtendedAttributes, addLastModified, hlm, truthyStamp, h0]⟩
      · exact ⟨addFileAttributes draw file (m.set "File:LastModified" (formatISO t)),
          by simp [extractExtendedAttributes, addLastModified, hlm, truthyStamp, h0,
            toISOString_of_valid t (hvalid t hlm)]⟩
  obtain ⟨m3, hm3⟩ := hattr (if file.type = "application/pdf" then extractPDFMetadata host file m1
    else m1)
  simp only [collectMetadata, hm1, hm3]

theorem analyzeFile_alerts (host : Host) (draw : Draw) (s : App) (fileId : String) :
    (analyzeFile host draw s fileId).app.alerts = s.alerts := by
  unfold analyzeFile
  split
  · rfl
  · split
    · rfl
    · split
      · exact finishAnalysis_alerts _ _ _ _
      · rfl

theorem analyzeFile_keeps_records (host : Host) (draw : Draw) (s : App) (fileId other : String)
    (h : (filesGet s.files other).isSome = true) :
    (filesGet (analyzeFile host draw s fileId).app.files other).isSome = true := by
  unfold analyzeFile
  split
  · exact h
  · split
    · exact h
    · split
      · rw [finishAnalysis_files]
        exact filesGet_filesSet_isSome _ _ _ _ h
      · exact h

theorem handleFiles_keeps_records (host : Host) (s : App) (input : List (File × Draw))
    (other : String) (h : (filesGet s.files other).isSome = true) :
    (filesGet (handleFiles host s input).app.files other).isSome = true := by
  induction input generalizing s with
  | nil => exact h
  | cons p rest ih =>
    obtain ⟨file, draw⟩ := p
    by_cases hheic : isHEIC host file = true
    · rw [(handleFiles_head host s file draw rest).1 hheic]
      exact ih _ h
    · have hk := analyzeFile_keeps_records host draw
        (renderFileCard host (storeRecord s (newFileId draw) ⟨file, none, false, none, none⟩)
          (newFileId draw)) (newFileId draw) other
        (by rw [renderFileCard_files]; exact filesGet_filesSet_isSome _ _ _ _ h)
      rw [((handleFiles_head host s file draw rest).2 (by simpa using hheic)).1]
      generalize analyzeFile host draw
        (renderFileCard host (storeRecord s (newFileId draw) ⟨file, none, false, none, none⟩)
          (newFileId draw)) (newFileId draw) = r at hk ⊢
      obtain ⟨s3, fate⟩ := r
      cases fate
      · exact ih s3 hk
      · exact hk
      · exact hk

/-- Where no accepted file makes the analysis stall or throw (every accepted image decodes,
every timestamp is a valid time value and every file name leaves its card intact), `handleFiles`
resolves, the alerts shown are exactly those of the HEIC files, in order, and every other file
has a record under its identifier. -/
theorem handleFiles_classifies_all (host : Host) (s : App) (input : List (File × Draw))
    (hok : ∀ p ∈ input, isHEIC host p.1 = false →
      (startsWith p.1.type "image/" = true →
        ∃ px late, host.loadImage p.1 = ImageLoad.loaded px late) ∧
      (∀ t, p.1.lastModified = some t → -maxTimeValue ≤ t ∧ t ≤ maxTimeValue) ∧
      host.parseCard p.1.name = intactCard) :
    (handleFiles host s input).fate = Settled.resolved ∧
    (handleFiles host s input).app.alerts
      = s.alerts ++ (input.filter (fun p => isHEIC host p.1)).map (fun p => heicAlert p.1) ∧
    ∀ p ∈ input, isHEIC host p.1 = false →
      (filesGet (handleFiles host s input).app.files (newFileId p.2)).isSome = true := by
  induction input generalizing s with
  | nil => simp [handleFiles]
  | cons p rest ih =>
    obtain ⟨file, draw⟩ := p
    have hrest : ∀ q ∈ rest, isHEIC host q.1 = false →
        (startsWith q.1.type "image/" = true →
          ∃ px late, host.loadImage q.1 = ImageLoad.loaded px late) ∧
        (∀ t, q.1.lastModified = some t → -maxTimeValue ≤ t ∧ t ≤ maxTimeValue) ∧
        host.parseCard q.1.name = intactCard :=
      fun q hq => hok q (List.mem_cons_of_mem _ hq)
    by_cases hheic : isHEIC host file = true
    · rw [(handleFiles_head host s file draw rest).1 hheic]
      obtain ⟨h1, h2, h3⟩ := ih { s with alerts := s.alerts ++ [heicAlert file] } hrest
      refine ⟨h1, ?_, ?_⟩
      · rw [h2]
        simp [List.filter_cons, hheic]
      · intro q hq hqh
        rcases List.mem_cons.mp hq with rfl | hq
        · rw [hheic] at hqh
          cases hqh
        · exact h3 q hq hqh
    · have hfalse : isHEIC host file = false := by simpa using hheic
      obtain ⟨himg, hvalid, hintact⟩ := hok (file, draw) (List.mem_cons_self _ _) hfalse
      have hhead := (handleFiles_head host s file draw rest).2 hfalse
      have hres := collectMetadata_resolved host draw file himg hvalid
      have hstored : filesGet (storeRecord s (newFileId draw)
          ⟨file, none, false, none, none⟩).files (newFileId draw)
          = some ⟨file, none, false, none, none⟩ := by
        simp [storeRecord, filesGet_filesSet_self]
      have hpart : ∀ part, (cardFind (renderFileCard host (storeRecord s (newFileId draw)
          ⟨file, none, false, none, none⟩) (newFileId draw)).cards (newFileId draw)
          part).isSome = true := by
        intro part
        apply cardFind_renderFileCard host _ _ _ part hstored
        show (host.parseCard file.name).has part = true
        rw [hintact]
        cases part <;> rfl
      have han := analyzeFile_of_record host draw
        (renderFileCard host (storeRecord s (newFileId draw) ⟨file, none, false, none, none⟩)
          (newFileId draw)) (newFileId draw) _ hhead.2 (hpart Part.progressFill)
      rw [if_pos hres, finishAnalysis_eq, if_pos (hpart Part.metadataSection),
        if_pos (hpart Part.status)] at han
      have hal := analyzeFile_alerts host draw
        (renderFileCard host (storeRecord s (newFileId draw) ⟨file, none, false, none, none⟩)
          (newFileId draw)) (newFileId draw)
      rw [hhead.1]
      rw [han] at hal ⊢
      simp only
      obtain ⟨h1, h2, h3⟩ := ih _ hrest
      refine ⟨h1, ?_, ?_⟩
      · rw [h2, hal, renderFileCard_alerts]
        simp [List.filter_cons, hfalse, storeRecord]
      · intro q hq hqh
        rcases List.mem_cons.mp hq with rfl | hq
        · apply handleFiles_keeps_records
          simp [setStatus, renderMetadata, storeRecord, renderFileCard_files,
            filesGet_filesSet_self]
        · exact h3 q hq hqh

/-! ## C11: the record invariant on reachable states -/

theorem mem_filesSet (files : List (String × FileData)) (fileId : String) (fd : FileData)
    (p : String × FileData) (h : p ∈ filesSet files fileId fd) : p ∈ files ∨ p.2 = fd := by
  induction files with
  | nil =>
    simp only [filesSet, List.mem_singleton] at h
    right
    rw [h]
  | cons e rest ih =>
    obtain ⟨k, v⟩ := e
    by_cases hk : k = fileId
    · simp only [filesSet, hk, if_true, List.mem_cons] at h
      rcases h with h | h
      · right
        rw [h]
      · left
        exact List.mem_cons_of_mem _ h
    · simp only [filesSet, hk, if_false, List.mem_cons] at h
      rcases h with h | h
      · left
        rw [h]
        exact List.mem_cons_self _ _
      · rcases ih h with h2 | h2
        · left
          exact List.mem_cons_of_mem _ h2
        · right
          exact h2

theorem filesGet_mem (files : List (String × FileData)) (fileId : String) (fd : FileData)
    (h : filesGet files fileId = some fd) : (fileId, fd) ∈ files := by
  induction files with
  | nil => simp [filesGet] at h
  | cons e rest ih =>
    obtain ⟨k, v⟩ := e
    by_cases hk : k = fileId
    · simp only [filesGet, hk, if_true, Option.some.injEq] at h
      rw [hk, h]
      exact List.mem_cons_self _ _
    · simp only [filesGet, hk, if_false] at h
      exact List.mem_cons_of_mem _ (ih h)

theorem storeRecord_consistent (s : App) (fileId : String) (fd : FileData)
    (hs : ∀ p ∈ s.files, RecordConsistent p.2) (hfd : RecordConsistent fd) :
    ∀ p ∈ (storeRecord s fileId fd).files, RecordConsistent p.2 := by
  intro p hp
  rcases mem_filesSet s.files fileId fd p hp with h | h
  · exact hs p h
  · rw [h]
    exact hfd

theorem analyzeFile_consistent (host : Host) (draw : Draw) (s : App) (fileId : String)
    (hs : ∀ p ∈ s.files, RecordConsistent p.2) :
    ∀ p ∈ (analyzeFile host draw s fileId).app.files, RecordConsistent p.2 := by
  cases hfd : filesGet s.files fileId with
  | none => simpa [analyzeFile, hfd] using hs
  | some fd =>
    cases hc : cardFind s.cards fileId Part.progressFill with
    | none =>
      rw [analyzeFile_no_progress host draw s fileId hc]
      exact hs
    | some c =>
      rw [analyzeFile_of_record host draw s fileId fd hfd (by simp [hc])]
      split
      · have hold : RecordConsistent fd := hs (fileId, fd) (filesGet_mem _ _ _ hfd)
        rw [finishAnalysis_files]
        exact storeRecord_consistent s fileId _ hs hold
      · exact hs

theorem handleFiles_consistent (host : Host) (s : App) (input : List (File × Draw))
    (hs : ∀ p ∈ s.files, RecordConsistent p.2) :
    ∀ p ∈ (handleFiles host s input).app.files, RecordConsistent p.2 := by
  induction input generalizing s with
  | nil => exact hs
  | cons e rest ih =>
    obtain ⟨file, draw⟩ := e
    by_cases hheic : isHEIC host file = true
    · rw [(handleFiles_head host s file draw rest).1 hheic]
      exact ih _ hs
    · have hnew : RecordConsistent ⟨file, none, false, none, none⟩ :=
        ⟨rfl, fun _ => ⟨rfl, rfl⟩⟩
      have hk := analyzeFile_consistent host draw
        (renderFileCard host (storeRecord s (newFileId draw) ⟨file, none, false, none, none⟩)
          (newFileId draw)) (newFileId draw)
        (by rw [renderFileCard_files]; exact storeRecord_consistent s (newFileId draw) _ hs hnew)
      rw [((handleFiles_head host s file draw rest).2 (by simpa using hheic)).1]
      generalize analyzeFile host draw
        (renderFileCard host (storeRecord s (newFileId draw) ⟨file, none, false, none, none⟩)
          (newFileId draw)) (newFileId draw) = r at hk ⊢
      obtain ⟨s3, fate⟩ := r
      cases fate
      · exact ih s3 hk
      · exact hk
      · exact hk

theorem removeMetadata_consistent (host : Host) (draw : Draw) (s : App) (fileId : String)
    (hs : ∀ p ∈ s.files, RecordConsistent p.2) :
    ∀ p ∈ (removeMetadata host draw s fileId).app.files, RecordConsistent p.2 := by
  cases hfd : filesGet s.files fileId with
  | none => simpa [removeMetadata, hfd] using hs
  | some fd =>
    cases hcl : fd.cleaned with
    | true => simpa [removeMetadata, hfd, hcl] using hs
    | false =>
      have hnew : ∀ p ∈ filesSet s.files fileId
          ⟨fd.file, fd.metadata, true,
            some (stripMetadata host draw fd.file (getSelectedMetadata s fileId)),
            some (getSelectedMetadata s fileId)⟩, RecordConsistent p.2 := by
        intro p hp
        rcases mem_filesSet s.files fileId _ p hp with h | h
        · exact hs p h
        · rw [h]
          exact ⟨rfl, fun hfalse => by cases hfalse⟩
      rw [removeMetadata_of_uncleaned host draw s fileId fd hfd hcl]
      split
      · split
        · split
          · simp only [downloadFile_files]
            exact hnew
          · exact hnew
        · exact hs
      · exact hs

theorem cleanEach_consistent (host : Host) (draws : Nat → Draw) (s : App) (i : Nat)
    (ids : List String) (hs : ∀ p ∈ s.files, RecordConsistent p.2) :
    ∀ p ∈ (cleanEach host draws s i ids).app.files, RecordConsistent p.2 := by
  induction ids generalizing s i with
  | nil => exact hs
  | cons fileId rest ih =>
    have hk := removeMetadata_consistent host (draws i) s fileId hs
    rw [cleanEach]
    generalize removeMetadata host (draws i) s fileId = r at hk ⊢
    obtain ⟨s1, fate⟩ := r
    cases fate
    · exact ih s1 (i + 1) hk
    · exact hk
    · exact hk

theorem downloadAllAsZip_files (draw : Draw) (s : App) :
    (downloadAllAsZip draw s).app.files = s.files := by
  unfold downloadAllAsZip
  split
  · rfl
  · split <;> rfl
  · rfl

theorem removeAllMetadata_consistent (host : Host) (draws : Nat → Draw) (s : App)
    (hs : ∀ p ∈ s.files, RecordConsistent p.2) :
    ∀ p ∈ (removeAllMetadata host draws s).app.files, RecordConsistent p.2 := by
  unfold removeAllMetadata
  simp only
  split
  · exact hs
  · have hk := cleanEach_consistent host draws s 0
      ((s.files.filter (fun p => !p.2.cleaned)).map (fun p => p.1)) hs
    generalize cleanEach host draws s 0
      ((s.files.filter (fun p => !p.2.cleaned)).map (fun p => p.1)) = r at hk ⊢
    obtain ⟨s1, fate⟩ := r
    cases fate
    · simp only [downloadAllAsZip_files]
      exact hk
    · exact hk
    · exact hk

theorem removeFile_consistent (s : App) (fileId : String)
    (hs : ∀ p ∈ s.files, RecordConsistent p.2) :
    ∀ p ∈ (removeFile s fileId).app.files, RecordConsistent p.2 := by
  have hsub : ∀ p ∈ filesDelete s.files fileId, RecordConsistent p.2 :=
    fun p hp => hs p (List.mem_of_mem_filter hp)
  unfold removeFile
  simp only
  split
  · exact hsub
  · exact hsub

/-- C11: in every state reachable from the empty batch by `handleFiles`, `analyzeFile`,
`removeMetadata`, `removeAllMetadata`, `removeFile` and `clearAll`, every record of the batch has
`cleanedFile` and `removedMetadata` both present or both absent, and both are absent when the
record is not marked cleaned. -/
theorem reachable_records_consistent (s : App) (h : Reachable s) :
    ∀ p ∈ s.files,
      (p.2.cleanedFile.isSome = p.2.removedMetadata.isSome) ∧
      (p.2.cleaned = false → p.2.cleanedFile = none ∧ p.2.removedMetadata = none) := by
  have hall : ∀ p ∈ s.files, RecordConsistent p.2 := by
    induction h with
    | init =>
      intro p hp
      cases hp
    | handleFiles host s input _ ih => exact handleFiles_consistent host s input ih
    | analyzeFile host draw s fileId _ ih => exact analyzeFile_consistent host draw s fileId ih
    | removeMetadata host draw s fileId _ ih =>
      exact removeMetadata_consistent host draw s fileId ih
    | removeAllMetadata host draws s _ ih => exact removeAllMetadata_consistent host draws s ih
    | removeFile s fileId _ ih => exact removeFile_consistent s fileId ih
    | clearAll s _ _ =>
      intro p hp
      cases hp
  exact hall

/-- Witness for C11: `cleanedOnce` is reached by one `handleFiles` and one `removeMetadata`; it
holds a cleaned record, with both fields present, and a record not cleaned, with both absent. -/
theorem reachable_records_consistent_witness :
    Reachable cleanedOnce ∧
    cleanedOnce.files.map (fun p => (p.2.cleaned, p.2.cleanedFile.isSome,
        p.2.removedMetadata.isSome)) = [(true, true, true), (false, false, false)] ∧
    ∀ p ∈ cleanedOnce.files,
      (p.2.cleanedFile.isSome = p.2.removedMetadata.isSome) ∧
      (p.2.cleaned = false → p.2.cleanedFile = none ∧ p.2.removedMetadata = none) :=
  have hreach : Reachable cleanedOnce :=
    Reachable.removeMetadata sampleHost drawA readyBatch "file_1700000000000_k3x9q2m1z"
      (Reachable.handleFiles sampleHost App.empty [(notesTxt, drawA), (corruptPng, drawB)]
        Reachable.init)
  ⟨hreach, by decide, reachable_records_consistent cleanedOnce hreach⟩


/-! ## C12: `toggleSelectAll` -/

theorem getSelectedMetadata_eq_fileBoxes (s : App) (fileId : String) :
    getSelectedMetadata s fileId
      = ((fileBoxes s fileId).filter (fun b => b.checked)).map (fun b => b.key) := by
  simp only [getSelectedMetadata, fileBoxes, List.filter_flatten, List.map_flatten, List.map_map]
  rfl

theorem fileBoxes_setAllBoxes (s : App) (fileId : String) (value : Bool) :
    fileBoxes (setAllBoxes s fileId value) fileId
      = (fileBoxes s fileId).map (fun b => ⟨b.key, value⟩) := by
  simp only [fileBoxes, setAllBoxes]
  generalize s.cards = cards
  induction cards with
  | nil => rfl
  | cons e rest ih =>
    obtain ⟨k, c⟩ := e
    by_cases hk : k = fileId
    · simp only [List.map_cons, hk, if_true, List.filter_cons, decide_True, List.flatten_cons,
        List.map_append, ih]
    · simp only [List.map_cons, hk, if_false, List.filter_cons, decide_False]
      exact ih

theorem map_key_setValue (boxes : List Checkbox) (value : Bool) :
    (boxes.map (fun b => (⟨b.key, value⟩ : Checkbox))).map (fun b => b.key)
      = boxes.map (fun b => b.key) := by
  simp [List.map_map, Function.comp_def]

theorem filter_checked_setValue (boxes : List Checkbox) (value : Bool) :
    ((boxes.map (fun b => (⟨b.key, value⟩ : Checkbox))).filter (fun b => b.checked)).map
        (fun b => b.key)
      = if value then boxes.map (fun b => b.key) else [] := by
  induction boxes with
  | nil => cases value <;> rfl
  | cons b rest ih =>
    cases value
    · simp [List.filter_cons]
    · simpa [List.filter_cons] using ih

/-- C12, as stated, fails. In `mixedBatch` one key is retained and three are marked for removal,
so not every key is retained; `toggleSelectAll` moves to "remove all" (all four keys marked),
not to "retain all". From `readyBatch`, where again not every key is retained (all four are
marked), it moves to "retain all": the outcome is not decided by whether every key was
retained. -/
theorem toggleSelectAll_from_mixed_removes_all :
    (fileBoxes mixedBatch "file_1700000000000_k3x9q2m1z").map (fun b => b.key)
      = ["File:LastModified", "File:Name", "File:Size", "File:Type"] ∧
    getSelectedMetadata mixedBatch "file_1700000000000_k3x9q2m1z"
      = ["File:LastModified", "File:Size", "File:Type"] ∧
    getSelectedMetadata (toggleSelectAll mixedBatch "file_1700000000000_k3x9q2m1z")
        "file_1700000000000_k3x9q2m1z"
      = ["File:LastModified", "File:Name", "File:Size", "File:Type"] ∧
    getSelectedMetadata readyBatch "file_1700000000000_k3x9q2m1z"
      = ["File:LastModified", "File:Name", "File:Size", "File:Type"] ∧
    getSelectedMetadata (toggleSelectAll readyBatch "file_1700000000000_k3x9q2m1z")
        "file_1700000000000_k3x9q2m1z" = [] := by
  refine ⟨?_, ?_, ?_, ?_, ?_⟩ <;> decide

/-- C12, amended: `toggleSelectAll` is a single binary toggle. After it every checkbox of the
file has the same state, the negation of "every key was marked for removal before the call", and
the keys are the same as before; so from a selection in which every key is marked for removal it
moves to "retain all" (empty removal set), and from any other selection it moves to "remove all"
(every key marked for removal). The batch is not touched. -/
theorem toggleSelectAll_binary (s : App) (fileId : String) :
    (∀ b ∈ fileBoxes (toggleSelectAll s fileId) fileId,
      b.checked = !((fileBoxes s fileId).all (fun cb => cb.checked))) ∧
    (fileBoxes (toggleSelectAll s fileId) fileId).map (fun b => b.key)
      = (fileBoxes s fileId).map (fun b => b.key) ∧
    ((fileBoxes s fileId).all (fun cb => cb.checked) = true →
      getSelectedMetadata (toggleSelectAll s fileId) fileId = []) ∧
    ((fileBoxes s fileId).all (fun cb => cb.checked) = false →
      getSelectedMetadata (toggleSelectAll s fileId) fileId
        = (fileBoxes s fileId).map (fun b => b.key)) ∧
    (toggleSelectAll s fileId).files = s.files := by
  have hboxes : fileBoxes (toggleSelectAll s fileId) fileId
      = (fileBoxes s fileId).map
          (fun b => ⟨b.key, !((fileBoxes s fileId).all (fun cb => cb.checked))⟩) :=
    fileBoxes_setAllBoxes s fileId _
  refine ⟨?_, ?_, ?_, ?_, rfl⟩
  · intro b hb
    rw [hboxes] at hb
    obtain ⟨b0, _, rfl⟩ := List.mem_map.mp hb
    rfl
  · rw [hboxes]
    exact map_key_setValue _ _
  · intro hall
    rw [getSelectedMetadata_eq_fileBoxes, hboxes, filter_checked_setValue, hall]
    rfl
  · intro hall
    rw [getSelectedMetadata_eq_fileBoxes, hboxes, filter_checked_setValue, hall]
    rfl

/-- Witness for C12: in `readyBatch` every key of the text file is marked for removal, in
`mixedBatch` one key is retained. -/
theorem toggleSelectAll_binary_witness :
    ((fileBoxes readyBatch "file_1700000000000_k3x9q2m1z").all (fun cb => cb.checked) = true ∧
      getSelectedMetadata (toggleSelectAll readyBatch "file_1700000000000_k3x9q2m1z")
        "file_1700000000000_k3x9q2m1z" = []) ∧
    ((fileBoxes mixedBatch "file_1700000000000_k3x9q2m1z").all (fun cb => cb.checked) = false ∧
      getSelectedMetadata (toggleSelectAll mixedBatch "file_1700000000000_k3x9q2m1z")
        "file_1700000000000_k3x9q2m1z"
        = (fileBoxes mixedBatch "file_1700000000000_k3x9q2m1z").map (fun b => b.key)) :=
  have h1 : (fileBoxes readyBatch "file_1700000000000_k3x9q2m1z").all (fun cb => cb.checked)
      = true := by decide
  have h2 : (fileBoxes mixedBatch "file_1700000000000_k3x9q2m1z").all (fun cb => cb.checked)
      = false := by decide
  ⟨⟨h1, (toggleSelectAll_binary readyBatch "file_1700000000000_k3x9q2m1z").2.2.1 h1⟩,
    ⟨h2, (toggleSelectAll_binary mixedBatch "file_1700000000000_k3x9q2m1z").2.2.2.1 h2⟩⟩

end MetaRemover
